import Mathlib

/-!
Shallow embedding of the csv-reporter ingestion/normalization/aggregation
pipeline (src/csv_reporter/normalizer.py, csv_reader.py, aggregator.py,
reports/registry.py) and proofs of the specification claims about it.

Modelling conventions:
* Python `float` values are modelled as rationals (`ℚ`).  The aggregation
  accumulates per record via `math.fsum([bucket.sum_ratings, rating])`,
  which keeps only the correctly rounded binary64 sum of each step, so the
  accumulated value is sequential rounded float addition; where that
  rounding matters it is modelled explicitly by `fp64round` (IEEE round to
  nearest, ties to even) and the `*FP` aggregation definitions.
  Definitions that idealize a float operation as exact rational arithmetic
  say so at their definition site and are used only for facts that do not
  depend on the rounding.
* Python strings are modelled as `List Char`; digits, word characters and
  whitespace classes are modelled over ASCII (all inputs the claims touch
  are ASCII apart from currency symbols, which the code strips).
* Python exceptions are modelled by `Except` / explicit error values.
-/

namespace CsvReporter

/-! ### Python string primitives -/

/-- The whitespace class of Python `str.strip` and of `\s` in the regexes
(ASCII part): space, tab, newline, carriage return, vertical tab, form feed. -/
def isWs (c : Char) : Bool :=
  c == ' ' || c == '\t' || c == '\n' || c == '\r' || c == '\x0b' || c == '\x0c'

/-- Python `str.strip()`: drop whitespace from both ends. -/
def pyStrip (cs : List Char) : List Char :=
  ((cs.dropWhile isWs).reverse.dropWhile isWs).reverse

/-- Python `str.lower()` on one character (ASCII range, which is all the
code's comparisons need). -/
def lowerChar (c : Char) : Char :=
  if 65 ≤ c.toNat ∧ c.toNat ≤ 90 then Char.ofNat (c.toNat + 32) else c

/-- Python `str.lower()`. -/
def pyLower (cs : List Char) : List Char :=
  cs.map lowerChar

/-- Python `s.replace(",", ".")`. -/
def replaceComma (cs : List Char) : List Char :=
  cs.map fun c => if c = ',' then '.' else c

/-! ### Error model (errors.py plus the built-in Python exceptions the
reader can raise) -/

/-- Exceptions observable in the modelled code: the `CsvReporterError`
hierarchy from errors.py, `ValueError` from the report registry, the OS
errors from `CSVReader._ensure_file`, and Python's `AttributeError`
(raised by `None.strip()`; it is *not* a `CsvReporterError`).  Message
texts are kept only where a claim depends on them. -/
inductive Err
  | dataError (msg : String)
  | schemaError (msg : String)
  | fileNotFound (msg : String)
  | isADirectoryError (msg : String)
  | permissionError (msg : String)
  | attributeError
  | valueError (msg : String)
  deriving DecidableEq, Repr

/-! ### normalizer.py -/

/-- Model of `_MULTI_SPACE.sub(" ", s)`: replace every maximal run of whitespace by a
single space.  The boolean argument records whether the previous character
was whitespace (i.e. whether we are inside a run). -/
def collapseWs : List Char → Bool → List Char
  | [], _ => []
  | c :: rest, prevWs =>
    if isWs c then
      if prevWs then collapseWs rest true else ' ' :: collapseWs rest true
    else c :: collapseWs rest false

/-- Model of `normalize_brand(raw)`: strip, collapse whitespace runs, lower-case;
`DataError` if the result is empty. -/
def normalize_brand (raw : String) : Except Err String :=
  let s := pyStrip raw.toList
  let s := collapseWs s false
  let s := pyLower s
  if s = [] then .error (.dataError "Empty brand after normalization")
  else .ok (String.mk s)

/-- The class of `_CURRENCY_CHARS = re.compile(r"[^\d.,\- ]")`: keep only digits, period,
comma, hyphen and space. -/
def keepPriceChar (c : Char) : Bool :=
  c.isDigit || c == '.' || c == ',' || c == '-' || c == ' '

/-- Model of `_CURRENCY_CHARS.sub("", s)`. -/
def stripCurrency (cs : List Char) : List Char :=
  cs.filter keepPriceChar

/-- The separator class `[\s_]` of `_THOUSANDS_SEP`. -/
def isSepChar (c : Char) : Bool :=
  isWs c || c == '_'

/-- Python's `\w` (ASCII part), used for the `\b` word boundary. -/
def isWordChar (c : Char) : Bool :=
  c.isAlphanum || c == '_'

/-- The lookahead `(?=\d{3}\b)`: the next three characters are digits and
are followed by a non-word character or the end of the string. -/
def boundary3 : List Char → Bool
  | d1 :: d2 :: d3 :: rest =>
    d1.isDigit && d2.isDigit && d3.isDigit &&
      (match rest with
       | [] => true
       | c :: _ => !isWordChar c)
  | _ => false

/-- Model of `_THOUSANDS_SEP.sub("", s)` where
`_THOUSANDS_SEP = re.compile(r"(?<=\d)[\s_](?=\d{3}\b)")`.  Every match of
the regex is a single separator character whose context (the lookbehind
and lookahead) refers to the original string, so substitution removes
exactly the separator positions satisfying the context; `prev` carries the
previous character of the original string. -/
def stripThousandsAux : Option Char → List Char → List Char
  | _, [] => []
  | prev, c :: rest =>
    if isSepChar c
        && (match prev with | some p => p.isDigit | none => false)
        && boundary3 rest then
      stripThousandsAux (some c) rest
    else c :: stripThousandsAux (some c) rest

def stripThousands (cs : List Char) : List Char :=
  stripThousandsAux none cs

/-! ### Python `float()` on the strings this program builds

Modelled with exact rational values.  The grammar implemented here is the
Python float-literal grammar over ASCII: optional surrounding whitespace,
optional sign, integer part, optional fraction, optional exponent, with
single underscores allowed between digits.  Python additionally accepts
"inf"/"infinity"/"nan"; in this program those spellings can only reach
`float()` from `parse_rating`, where the `0 <= value <= 5` check rejects
the resulting values (comparisons with nan are false), so modelling them
as parse failures changes only the error message of an already-failing
path, never a success or a returned value. -/

def digitVal (c : Char) : Nat := c.toNat - 48

/-- Parse a digit run, allowing single underscores between digits
(`digit (["_"] digit)*`).  Returns the accumulated value, the number of
digits consumed, and the remaining characters. -/
def digitsCore : Nat → Nat → List Char → Nat × Nat × List Char
  | v, n, [] => (v, n, [])
  | v, n, c :: rest =>
    if c.isDigit then digitsCore (10 * v + digitVal c) (n + 1) rest
    else if c = '_' then
      match rest with
      | d :: rest2 =>
        if d.isDigit then digitsCore (10 * v + digitVal d) (n + 1) rest2
        else (v, n, c :: rest)
      | [] => (v, n, c :: rest)
    else (v, n, c :: rest)
  termination_by _ _ l => l.length

/-- Optional leading sign; returns whether the value is negated. -/
def parseSign : List Char → Bool × List Char
  | '-' :: rest => (true, rest)
  | '+' :: rest => (false, rest)
  | cs => (false, cs)

def parseFloatChars (cs : List Char) : Option ℚ :=
  let s1 := parseSign cs
  let ip := digitsCore 0 0 s1.2
  let fp : Nat × Nat × List Char :=
    match ip.2.2 with
    | c :: rest => if c = '.' then digitsCore 0 0 rest else (0, 0, ip.2.2)
    | [] => (0, 0, ip.2.2)
  if ip.2.1 + fp.2.1 = 0 then none
  else
    -- The value ±(intpart · 10^fracDigits + fracpart) / 10^fracDigits,
    -- scaled by the exponent, built as one normalized rational.
    let num : Int := Int.ofNat (ip.1 * 10 ^ fp.2.1 + fp.1)
    let num : Int := if s1.1 then -num else num
    match fp.2.2 with
    | [] => some (mkRat num (10 ^ fp.2.1))
    | e :: rest =>
      if e = 'e' ∨ e = 'E' then
        let es := parseSign rest
        let ep := digitsCore 0 0 es.2
        if ep.2.1 = 0 ∨ ep.2.2 ≠ [] then none
        else if es.1 then some (mkRat num (10 ^ fp.2.1 * 10 ^ ep.1))
        else some (mkRat (num * Int.ofNat (10 ^ ep.1)) (10 ^ fp.2.1))
      else none

/-- Python `float(s)`: `float` strips surrounding whitespace itself. -/
def pyFloat (cs : List Char) : Option ℚ :=
  parseFloatChars (pyStrip cs)

/-- Model of `parse_price(raw)`: trim; `DataError` if empty; strip currency
characters; remove thousands separators; comma to period; parse; `DataError`
on parse failure or a negative value. -/
def parse_price (raw : String) : Except Err ℚ :=
  let s := pyStrip raw.toList
  if s = [] then .error (.dataError "Price is empty")
  else
    match pyFloat (replaceComma (stripThousands (stripCurrency s))) with
    | none => .error (.dataError "Invalid price")
    | some v =>
      if v < 0 then .error (.dataError "Negative price is not allowed")
      else .ok v

/-- The sentinel spellings `{"na", "n/a", "none", "null"}` accepted (after
lower-casing) as an absent rating. -/
def ratingSentinels : List (List Char) :=
  ["na".toList, "n/a".toList, "none".toList, "null".toList]

/-- Model of `parse_rating(raw)`: trimmed-empty or sentinel input yields `none`;
otherwise comma to period, parse, and require `0 <= value <= 5`. -/
def parse_rating (raw : String) : Except Err (Option ℚ) :=
  let s := pyStrip raw.toList
  if s = [] then .ok none
  else if pyLower s ∈ ratingSentinels then .ok none
  else
    match pyFloat (replaceComma s) with
    | none => .error (.dataError "Invalid rating")
    | some v =>
      if 0 ≤ v ∧ v ≤ 5 then .ok (some v)
      else .error (.dataError "Rating out of range [0, 5]")

/-! ### model.py -/

/-- Model of `Product`: one CSV row after normalization (`rating = none` means "no
valid rating"). -/
structure Product where
  name : String
  brand : String
  price : ℚ
  rating : Option ℚ
  deriving DecidableEq, Repr

/-- Model of `Dataset`: ordered container of products. -/
structure Dataset where
  products : List Product := []
  deriving DecidableEq, Repr

/-- Model of `BrandStats`: aggregated per-brand statistics. -/
structure BrandStats where
  brand : String
  avg_rating : ℚ
  items : Nat
  deriving DecidableEq, Repr

/-! ### aggregator.py -/

/-- The private accumulator `_Acc` of `AggregatorService`. -/
structure RatingAcc where
  sum_ratings : ℚ
  count : Nat
  deriving DecidableEq, Repr

/-- Model of `acc.setdefault(p.brand, _Acc())` followed by
`bucket.sum_ratings = math.fsum([bucket.sum_ratings, rating]); bucket.count += 1`
on a Python dict modelled as an insertion-ordered association list: update
the entry for `b` in place, or append a fresh one at the end.  The `fsum`
of the two floats keeps only the correctly rounded binary64 sum of each
step, so the stored value is sequential rounded addition; this definition
idealizes it as exact rational addition — adequate for the range and
count facts proved from it, but not for bit-exact value comparisons.  The
rounding-faithful version is `updateAccFP` below. -/
def updateAcc : List (String × RatingAcc) → String → ℚ → List (String × RatingAcc)
  | [], b, r => [(b, ⟨r, 1⟩)]
  | (k, v) :: rest, b, r =>
    if k = b then (k, ⟨v.sum_ratings + r, v.count + 1⟩) :: rest
    else (k, v) :: updateAcc rest b r

/-- The accumulation loop of `compute_brand_avg_rating`: skip records with
an absent rating, defensively check `0 <= rating <= 5` (raising `DataError`
otherwise), and accumulate per-brand sum and count. -/
def aggLoop : List Product → List (String × RatingAcc) → Except Err (List (String × RatingAcc))
  | [], acc => .ok acc
  | p :: rest, acc =>
    match p.rating with
    | none => aggLoop rest acc
    | some r =>
      if 0 ≤ r ∧ r ≤ 5 then aggLoop rest (updateAcc acc p.brand r)
      else .error (.dataError "Invariant violated: rating out of range [0, 5]")

/-- Model of `AggregatorService.compute_brand_avg_rating`: run the loop, then emit
one `BrandStats` per bucket with nonzero count, in dict order.  Sums and
averages are idealized as exact rational arithmetic here; the variant
with binary64-faithful rounding is `compute_brand_avg_rating_fp`. -/
def compute_brand_avg_rating (d : Dataset) : Except Err (List BrandStats) :=
  (aggLoop d.products []).map fun acc =>
    (acc.filter fun kv => kv.2.count != 0).map fun kv =>
      ⟨kv.1, kv.2.sum_ratings / (kv.2.count : ℚ), kv.2.count⟩

/-! ### IEEE binary64 rounding, and the rounding-faithful aggregation

Every float the aggregator touches is an IEEE binary64 value, and both
`math.fsum([bucket.sum_ratings, rating])` (the correctly rounded sum of
two floats) and the final `bucket.sum_ratings / bucket.count` (correctly
rounded division) produce the binary64 value nearest the exact rational
result, ties to even.  `fp64round` is that rounding for the normal range;
subnormal underflow and overflow cannot occur for ratings in `[0, 5]`,
their partial sums and their averages, so they are not modelled. -/

/-- Floor of the base-2 logarithm, by structural recursion on a fuel
bound (exact whenever `fuel ≥ log2 n`). -/
def log2fuel : Nat → Nat → Nat
  | 0, _ => 0
  | f + 1, n => if 2 ≤ n then log2fuel f (n / 2) + 1 else 0

/-- Floor of the base-2 logarithm of a positive natural number. -/
def natLog2 (n : Nat) : Nat := log2fuel n n

/-- Multiply a rational by an integer power of two. -/
def scalePow2 (q : ℚ) (k : Int) : ℚ :=
  if 0 ≤ k then mkRat (q.num * Int.ofNat (2 ^ k.toNat)) q.den
  else mkRat q.num (q.den * 2 ^ (-k).toNat)

/-- Floor of the base-2 logarithm of a positive rational: the unique `e`
with `2 ^ e ≤ q < 2 ^ (e + 1)`.  For `q ≥ 1` this is the log of `⌊q⌋`;
for `q < 1` it is `-k` when `q` is exactly `2 ^ (-k)` and `-k - 1`
otherwise, where `k` is the log of `⌊1 / q⌋`. -/
def floorLog2 (q : ℚ) : Int :=
  if (q.den : Int) ≤ q.num then Int.ofNat (natLog2 (q.num.toNat / q.den))
  else
    let k := natLog2 (q.den / q.num.toNat)
    let t := scalePow2 q (Int.ofNat k)
    if t.num = (t.den : Int) then -(k : Int) else -(k : Int) - 1

/-- Floor of a rational as an integer (the denominator is positive). -/
def ratFloor (q : ℚ) : Int := q.num.fdiv q.den

/-- Round a rational to the nearest integer, ties to even.  `rnum` is the
numerator of the fractional part over the (positive) denominator. -/
def roundNearestEven (x : ℚ) : Int :=
  let f := ratFloor x
  let rnum := x.num - f * (x.den : Int)
  if 2 * rnum < (x.den : Int) then f
  else if (x.den : Int) < 2 * rnum then f + 1
  else if f % 2 = 0 then f else f + 1

/-- Round a positive rational to 53 significant bits, ties to even: with
`e = ⌊log2 q⌋` the unit in the last place is `2 ^ (e - 52)`, and the
scaled value `q / 2 ^ (e - 52) ∈ [2 ^ 52, 2 ^ 53)` is rounded to the
nearest integer, ties to even. -/
def fp64roundPos (q : ℚ) : ℚ :=
  let e := floorLog2 q
  scalePow2 (mkRat (roundNearestEven (scalePow2 q (52 - e))) 1) (e - 52)

/-- Round a rational to the nearest IEEE binary64 value (round to
nearest, ties to even), for magnitudes in the normal range. -/
def fp64round (q : ℚ) : ℚ :=
  if q.num = 0 then 0
  else if q.num < 0 then -fp64roundPos (-q)
  else fp64roundPos q

/-- Model of `math.fsum([a, r])` on two binary64 values: the correctly
rounded float sum. -/
def fsumPair (a r : ℚ) : ℚ := fp64round (a + r)

/-- Correctly rounded binary64 division, Python's `a / b` on floats. -/
def fp64div (a b : ℚ) : ℚ := fp64round (a / b)

/-- Rounding-faithful model of `acc.setdefault(p.brand, _Acc())` followed by
`bucket.sum_ratings = math.fsum([bucket.sum_ratings, rating]); bucket.count += 1`:
like `updateAcc`, but each accumulation step keeps only the correctly
rounded binary64 sum, as the code does (`_Acc` starts from `0.0`). -/
def updateAccFP : List (String × RatingAcc) → String → ℚ → List (String × RatingAcc)
  | [], b, r => [(b, ⟨fsumPair 0 r, 1⟩)]
  | (k, v) :: rest, b, r =>
    if k = b then (k, ⟨fsumPair v.sum_ratings r, v.count + 1⟩) :: rest
    else (k, v) :: updateAccFP rest b r

/-- The accumulation loop of `compute_brand_avg_rating` with
rounding-faithful accumulation (the range check compares float values
exactly, which rational comparison models faithfully). -/
def aggLoopFP : List Product → List (String × RatingAcc) → Except Err (List (String × RatingAcc))
  | [], acc => .ok acc
  | p :: rest, acc =>
    match p.rating with
    | none => aggLoopFP rest acc
    | some r =>
      if 0 ≤ r ∧ r ≤ 5 then aggLoopFP rest (updateAccFP acc p.brand r)
      else .error (.dataError "Invariant violated: rating out of range [0, 5]")

/-- Model of `AggregatorService.compute_brand_avg_rating` with binary64-faithful
arithmetic: rounded per-record accumulation and a correctly rounded final
division. -/
def compute_brand_avg_rating_fp (d : Dataset) : Except Err (List BrandStats) :=
  (aggLoopFP d.products []).map fun acc =>
    (acc.filter fun kv => kv.2.count != 0).map fun kv =>
      ⟨kv.1, fp64div kv.2.sum_ratings (kv.2.count : ℚ), kv.2.count⟩

/-! ### csv_reader.py -/

/-- One data row after header-map extraction: the values stored by
`csv.DictReader` for the four required columns.  `DictReader` puts every
fieldname in every row dict, using `None` (here `none`) as the value when
the physical row is shorter than the header — so `row.get(headers[c], "")`
returns exactly this stored value and its `""` default is unreachable. -/
structure RawRow where
  name : Option String
  brand : Option String
  price : Option String
  rating : Option String
  deriving DecidableEq, Repr

/-- Python `value.strip()` where `value` may be `None`: `None.strip()`
raises `AttributeError`, an untyped error outside the `CsvReporterError`
hierarchy. -/
def pyStripField : Option String → Except Err (List Char)
  | some s => .ok (pyStrip s.toList)
  | none => .error .attributeError

/-- Model of `normalize_brand(brand_raw)` where `brand_raw` may be `None` (its
internal `raw.strip()` raises `AttributeError` on `None`). -/
def normalize_brand_field : Option String → Except Err String
  | some s => normalize_brand s
  | none => .error .attributeError

/-- Model of `parse_price(price_raw)` where `price_raw` may be `None`. -/
def parse_price_field : Option String → Except Err ℚ
  | some s => parse_price s
  | none => .error .attributeError

/-- Model of `parse_rating(rating_raw)` where `rating_raw` may be `None`. -/
def parse_rating_field : Option String → Except Err (Option ℚ)
  | some s => parse_rating s
  | none => .error .attributeError

/-- The body of the `try` block of `CSVReader._parse_row`: extract and
strip the name, reject an empty name with `DataError`, then normalize
brand, price and rating in that order. -/
def parse_row_inner (row : RawRow) : Except Err Product :=
  match pyStripField row.name with
  | .error e => .error e
  | .ok nameRaw =>
    if nameRaw = [] then .error (.dataError "Empty product name")
    else
      match normalize_brand_field row.brand with
      | .error e => .error e
      | .ok brand =>
        match parse_price_field row.price with
        | .error e => .error e
        | .ok price =>
          match parse_rating_field row.rating with
          | .error e => .error e
          | .ok rating => .ok ⟨String.mk nameRaw, brand, price, rating⟩

/-- Model of `CSVReader._parse_row`: the `except (DataError, KeyError)` clause
re-raises with `f"{path}:{line_no}: {exc}"`; other exceptions (notably
`AttributeError`) propagate untouched. -/
def parse_row (row : RawRow) (path : String) (lineNo : Nat) : Except Err Product :=
  match parse_row_inner row with
  | .ok p => .ok p
  | .error (.dataError msg) =>
    .error (.dataError (path ++ ":" ++ toString lineNo ++ ": " ++ msg))
  | .error e => .error e

/-- The row loop of `CSVReader._read_single`: parse each row at its
1-based physical line number and collect the products, aborting on the
first error. -/
def readRows (path : String) (lineNo : Nat) : List RawRow → Except Err (List Product)
  | [] => .ok []
  | row :: rest =>
    match parse_row row path lineNo with
    | .error e => .error e
    | .ok p =>
      match readRows path (lineNo + 1) rest with
      | .error e => .error e
      | .ok ps => .ok (p :: ps)

/-- Model of `CSVReader._read_single` at the row level: the header occupies line 1,
so the first data row is parsed with line number 2. -/
def read_single (path : String) (rows : List RawRow) : Except Err (List Product) :=
  readRows path 2 rows

/-- Observable file-system events of a `CSVReader.load` run: the path
resolution performed by `_ensure_file` (os.path stat calls), and the open
and close of a file handle. -/
inductive Ev
  | resolve (p : String)
  | openF (p : String)
  | closeF (p : String)
  deriving DecidableEq, Repr

/-- Abstract file system: existence, regular-file and readability checks,
and the parsed data rows of each file.  Path canonicalization
(`os.path.abspath`) is modelled as the identity. -/
structure FS where
  pathExists : String → Bool
  isFile : String → Bool
  readable : String → Bool
  rows : String → List RawRow

/-- Model of `CSVReader._ensure_file`: `FileNotFoundError` if the path does not
exist, `IsADirectoryError` if it is not a regular file, `PermissionError`
if it is not readable; otherwise the (canonical) path. -/
def ensure_file (fs : FS) (p : String) : Except Err String :=
  if !fs.pathExists p then .error (.fileNotFound ("File not found: " ++ p))
  else if !fs.isFile p then .error (.isADirectoryError ("Not a file: " ++ p))
  else if !fs.readable p then .error (.permissionError ("File is not readable: " ++ p))
  else .ok p

/-- The list comprehension
`canonical_files = [self._ensure_file(p) for p in files]`: resolve every
path in argument order, aborting on the first failure; the trace records
each attempted resolution. -/
def resolvePhase (fs : FS) : List String → List Ev × Except Err (List String)
  | [] => ([], .ok [])
  | p :: rest =>
    match ensure_file fs p with
    | .error e => ([Ev.resolve p], .error e)
    | .ok q =>
      let t := resolvePhase fs rest
      (Ev.resolve p :: t.1, t.2.map (q :: ·))

/-- The reading loop of `load`: open, fully consume and close each
resolved file in order, aborting on the first row error.  The `with`
statement closes the handle on every exit path, so the close event is
emitted even when the file's rows abort the read. -/
def readPhase (fs : FS) : List String → List Ev × Except Err (List Product)
  | [] => ([], .ok [])
  | p :: rest =>
    match read_single p (fs.rows p) with
    | .error e => ([Ev.openF p, Ev.closeF p], .error e)
    | .ok ps =>
      let t := readPhase fs rest
      (Ev.openF p :: Ev.closeF p :: t.1, t.2.map (ps ++ ·))

/-- Model of `CSVReader.load`: resolve every path first, fail with `SchemaError` if
the (resolved) list is empty, then read the files in order, merging their
products into one dataset. -/
def load (fs : FS) (files : List String) : List Ev × Except Err (List Product) :=
  let t1 := resolvePhase fs files
  match t1.2 with
  | .error e => (t1.1, .error e)
  | .ok canonical =>
    if canonical = [] then (t1.1, .error (.schemaError "No input files provided"))
    else
      let t2 := readPhase fs canonical
      (t1.1 ++ t2.1, t2.2)

/-! ### reports/registry.py -/

/-- A report class as the registry sees it: `NAME = none` models a class
whose `NAME` attribute is missing or not a string
(`getattr(report_cls, "NAME", None)` / the `isinstance` check). -/
structure ReportCls where
  NAME : Option String
  deriving DecidableEq, Repr

/-- The registry key: `name.strip().lower()`. -/
def registryKey (name : String) : String :=
  String.mk (pyLower (pyStrip name.toList))

/-- Model of `ReportRegistry.register`, with the registry dict as an
insertion-ordered association list and the raised `ValueError` made
explicit: the pair returned is the registry contents after the call and
the error, if any.  Python raises before the single mutating statement,
so a failing call leaves the dict untouched. -/
def register (reg : List (String × ReportCls)) (cls : ReportCls) :
    List (String × ReportCls) × Option Err :=
  match cls.NAME with
  | none => (reg, some (.valueError "Report class must define string NAME"))
  | some name =>
    if name = "" then (reg, some (.valueError "Report class must define string NAME"))
    else
      let key := registryKey name
      if key = "" then (reg, some (.valueError "Report NAME must be non-empty"))
      else if (reg.lookup key).isSome then
        (reg, some (.valueError ("Report already registered: " ++ key)))
      else (reg ++ [(key, cls)], none)

instance {ε α : Type} [DecidableEq ε] [DecidableEq α] : DecidableEq (Except ε α)
  | .error e, .error f =>
    if h : e = f then .isTrue (by rw [h]) else .isFalse (by intro hh; cases hh; exact h rfl)
  | .error _, .ok _ => .isFalse (by intro h; cases h)
  | .ok _, .error _ => .isFalse (by intro h; cases h)
  | .ok a, .ok b =>
    if h : a = b then .isTrue (by rw [h]) else .isFalse (by intro hh; cases hh; exact h rfl)

/-! ### Specification-side views of the aggregation -/

/-- First-match lookup in the accumulator association list (Python dict
read access). -/
def lookupAcc : List (String × RatingAcc) → String → Option RatingAcc
  | [], _ => none
  | (k, v) :: rest, b => if k = b then some v else lookupAcc rest b

/-- Combine an optional accumulator with a further sum `s` over `c` more
ratings; a fresh bucket exists only when at least one rating arrived. -/
def accPlus : Option RatingAcc → ℚ → Nat → Option RatingAcc
  | some v, s, c => some ⟨v.sum_ratings + s, v.count + c⟩
  | none, s, c => if c = 0 then none else some ⟨s, c⟩

/-- The present ratings of the records of brand `b`, in record order. -/
def ratingsOf (l : List Product) (b : String) : List ℚ :=
  l.filterMap fun p => if p.brand = b then p.rating else none

def brandRatings (d : Dataset) (b : String) : List ℚ :=
  ratingsOf d.products b

/-- How many records of brand `b` carry a present rating. -/
def brandCount (d : Dataset) (b : String) : Nat :=
  (brandRatings d b).length

/-- The sum of the present ratings of brand `b`. -/
def brandSum (d : Dataset) (b : String) : ℚ :=
  (brandRatings d b).sum

/-- The (avg_rating, items) pair the output list reports for brand `b`,
if the brand appears. -/
def statsFor (s : List BrandStats) (b : String) : Option (ℚ × Nat) :=
  (s.find? fun st => st.brand == b).map fun st => (st.avg_rating, st.items)

theorem lookupAcc_updateAcc (acc : List (String × RatingAcc)) (b : String) (r : ℚ)
    (b' : String) :
    lookupAcc (updateAcc acc b r) b' =
      if b' = b then
        match lookupAcc acc b with
        | some v => some ⟨v.sum_ratings + r, v.count + 1⟩
        | none => some ⟨r, 1⟩
      else lookupAcc acc b' := by
  induction acc with
  | nil =>
    by_cases h : b' = b
    · simp [updateAcc, lookupAcc, h]
    · have h' : ¬ b = b' := fun hh => h hh.symm
      simp [updateAcc, lookupAcc, h, h']
  | cons kv rest ih =>
    obtain ⟨k, v⟩ := kv
    by_cases hkb : k = b
    · subst hkb
      by_cases h : b' = k
      · subst h; simp [updateAcc, lookupAcc]
      · have h' : ¬ k = b' := fun hh => h hh.symm
        simp [updateAcc, lookupAcc, h, h']
    · by_cases h : k = b'
      · subst h
        simp [updateAcc, lookupAcc, hkb]
      · simp [updateAcc, lookupAcc, hkb, h, ih]

theorem ratingsOf_cons_none (p : Product) (l : List Product) (b : String)
    (h : p.rating = none) : ratingsOf (p :: l) b = ratingsOf l b := by
  simp [ratingsOf, List.filterMap_cons, h]

theorem ratingsOf_cons_some_eq (p : Product) (l : List Product) (r : ℚ)
    (h : p.rating = some r) (hb : p.brand = b) :
    ratingsOf (p :: l) b = r :: ratingsOf l b := by
  simp [ratingsOf, List.filterMap_cons, h, hb]

theorem ratingsOf_cons_some_ne (p : Product) (l : List Product)
    (hb : p.brand ≠ b) : ratingsOf (p :: l) b = ratingsOf l b := by
  simp [ratingsOf, List.filterMap_cons, hb]

theorem accPlus_one (o : Option RatingAcc) (r : ℚ) :
    (match o with
     | some v => some (⟨v.sum_ratings + r, v.count + 1⟩ : RatingAcc)
     | none => some (⟨r, 1⟩ : RatingAcc)) = accPlus o r 1 := by
  cases o <;> simp [accPlus]

theorem accPlus_step (o : Option RatingAcc) (r s : ℚ) (c : Nat) :
    accPlus o (r + s) (c + 1) = accPlus (accPlus o r 1) s c := by
  cases o with
  | none =>
    show (if c + 1 = 0 then none else some (⟨r + s, c + 1⟩ : RatingAcc))
        = accPlus (if 1 = 0 then none else some (⟨r, 1⟩ : RatingAcc)) s c
    rw [if_neg (Nat.succ_ne_zero c), if_neg one_ne_zero]
    show some (⟨r + s, c + 1⟩ : RatingAcc) = some (⟨r + s, 1 + c⟩ : RatingAcc)
    rw [Nat.add_comm 1 c]
  | some v =>
    show some (⟨v.sum_ratings + (r + s), v.count + (c + 1)⟩ : RatingAcc)
        = some (⟨v.sum_ratings + r + s, v.count + 1 + c⟩ : RatingAcc)
    rw [← add_assoc, show v.count + (c + 1) = v.count + 1 + c from by omega]

/-- After a successful accumulation pass over `l`, the bucket of each
brand is the starting bucket extended by the sum and count of the present
ratings of that brand in `l`. -/
theorem aggLoop_ok_lookup (l : List Product) :
    ∀ acc acc' : List (String × RatingAcc), aggLoop l acc = .ok acc' →
      ∀ b, lookupAcc acc' b
        = accPlus (lookupAcc acc b) (ratingsOf l b).sum (ratingsOf l b).length := by
  induction l with
  | nil =>
    intro acc acc' h b
    simp only [aggLoop, Except.ok.injEq] at h
    subst h
    cases hl : lookupAcc acc b <;> simp [ratingsOf, accPlus, hl]
  | cons p rest ih =>
    intro acc acc' h b
    cases hr : p.rating with
    | none =>
      simp only [aggLoop, hr] at h
      rw [ratingsOf_cons_none p rest b hr]
      exact ih acc acc' h b
    | some r =>
      simp only [aggLoop, hr] at h
      split at h
      case isTrue hrange =>
        have hstep := ih _ _ h b
        rw [hstep, lookupAcc_updateAcc]
        by_cases hb : b = p.brand
        · subst hb
          rw [ratingsOf_cons_some_eq p rest r hr rfl]
          rw [List.sum_cons, List.length_cons, if_pos rfl, accPlus_one, ← accPlus_step]
        · rw [ratingsOf_cons_some_ne p rest (fun hh => hb hh.symm), if_neg hb]
      case isFalse => cases h

/-- Buckets always hold at least one rating, a nonnegative sum, and a sum
bounded by five per rating. -/
def accGood (acc : List (String × RatingAcc)) : Prop :=
  ∀ kv ∈ acc, 1 ≤ kv.2.count ∧ 0 ≤ kv.2.sum_ratings
    ∧ kv.2.sum_ratings ≤ 5 * (kv.2.count : ℚ)

theorem accGood_updateAcc {acc : List (String × RatingAcc)} {b : String} {r : ℚ}
    (hacc : accGood acc) (h0 : 0 ≤ r) (h5 : r ≤ 5) : accGood (updateAcc acc b r) := by
  induction acc with
  | nil =>
    intro kv hkv
    simp only [updateAcc, List.mem_singleton] at hkv
    subst hkv
    simpa using ⟨h0, h5⟩
  | cons kv0 rest ih =>
    obtain ⟨k, v⟩ := kv0
    have hv := hacc (k, v) (List.mem_cons_self _ _)
    have hrest : accGood rest := fun kv hkv => hacc kv (List.mem_cons_of_mem _ hkv)
    by_cases hk : k = b
    · intro kv hkv
      simp only [updateAcc, if_pos hk, List.mem_cons] at hkv
      rcases hkv with rfl | hkv
      · have h1 := hv.1
        have h2 := hv.2.1
        have h3 := hv.2.2
        refine ⟨?_, ?_, ?_⟩
        · show 1 ≤ v.count + 1
          omega
        · show 0 ≤ v.sum_ratings + r
          linarith
        · show v.sum_ratings + r ≤ 5 * ((v.count + 1 : Nat) : ℚ)
          push_cast
          linarith
      · exact hacc kv (List.mem_cons_of_mem _ hkv)
    · intro kv hkv
      simp only [updateAcc, if_neg hk, List.mem_cons] at hkv
      rcases hkv with rfl | hkv
      · exact hv
      · exact ih hrest kv hkv

theorem aggLoop_ok_accGood (l : List Product) :
    ∀ acc acc' : List (String × RatingAcc), aggLoop l acc = .ok acc' →
      accGood acc → accGood acc' := by
  induction l with
  | nil =>
    intro acc acc' h hacc
    simp only [aggLoop, Except.ok.injEq] at h
    subst h; exact hacc
  | cons p rest ih =>
    intro acc acc' h hacc
    cases hr : p.rating with
    | none => simp only [aggLoop, hr] at h; exact ih acc acc' h hacc
    | some r =>
      simp only [aggLoop, hr] at h
      split at h
      case isTrue hrange => exact ih _ _ h (accGood_updateAcc hacc hrange.1 hrange.2)
      case isFalse => cases h

/-- The final `BrandStats` list, read back per brand, is the accumulator
lookup with the sum divided by the count. -/
theorem statsFor_outMap (acc : List (String × RatingAcc)) (b : String) :
    statsFor (acc.map fun kv => ⟨kv.1, kv.2.sum_ratings / (kv.2.count : ℚ), kv.2.count⟩) b
      = (lookupAcc acc b).map fun v => (v.sum_ratings / (v.count : ℚ), v.count) := by
  induction acc with
  | nil => simp [statsFor, lookupAcc]
  | cons kv rest ih =>
    by_cases h : kv.1 = b
    · simp [statsFor, lookupAcc, h]
    · simp only [List.map_cons, statsFor, lookupAcc, if_neg h]
      rw [List.find?_cons_of_neg _ (by simpa using h)]
      exact ih

/-- Characterization of a successful `compute_brand_avg_rating`: brand `b`
appears in the output iff it has a record with a present rating, and then
its entry is (sum of present ratings / their number, their number). -/
theorem compute_ok_statsFor (d : Dataset) (s : List BrandStats)
    (h : compute_brand_avg_rating d = .ok s) (b : String) :
    statsFor s b =
      if brandCount d b = 0 then none
      else some (brandSum d b / (brandCount d b : ℚ), brandCount d b) := by
  unfold compute_brand_avg_rating at h
  cases hagg : aggLoop d.products [] with
  | error e => rw [hagg] at h; cases h
  | ok acc =>
    rw [hagg] at h
    have hgood : accGood acc :=
      aggLoop_ok_accGood d.products [] acc hagg (by intro kv hkv; cases hkv)
    have hfilter : (acc.filter fun kv => kv.2.count != 0) = acc := by
      rw [List.filter_eq_self]
      intro kv hkv
      have h1 := (hgood kv hkv).1
      simpa using by omega
    simp only [Except.map, hfilter, Except.ok.injEq] at h
    subst h
    rw [statsFor_outMap]
    have hlook := aggLoop_ok_lookup d.products [] acc hagg b
    rw [hlook]
    simp only [lookupAcc, accPlus, brandCount, brandSum, brandRatings]
    split <;> simp_all

/-- Skipping the records with an absent rating before the loop changes
nothing: the loop itself skips them. -/
theorem aggLoop_filter_present (l : List Product) :
    ∀ acc, aggLoop (l.filter fun p => p.rating.isSome) acc = aggLoop l acc := by
  induction l with
  | nil => intro acc; rfl
  | cons p rest ih =>
    intro acc
    cases hr : p.rating with
    | none => simp [aggLoop, List.filter_cons, hr, ih]
    | some r =>
      simp only [List.filter_cons, hr, Option.isSome_some, if_pos rfl, aggLoop]
      split
      · exact ih _
      · rfl

/-- A brand all of whose records lack a rating has an empty rating list. -/
theorem brandRatings_eq_nil (d : Dataset) (b : String)
    (h : ∀ p ∈ d.products, p.brand = b → p.rating = none) :
    brandRatings d b = [] := by
  rw [brandRatings, ratingsOf, List.filterMap_eq_nil_iff]
  intro p hp
  by_cases hb : p.brand = b
  · simp [hb, h p hp hb]
  · simp [hb]

/-! ### Order (in)dependence of the rounding-faithful aggregation -/

/-- The binary64 value of the literal `0.1` (what `float("0.1")` parses
to): `3602879701896397 / 2 ^ 55`. -/
def r01 : ℚ := mkRat 3602879701896397 36028797018963968

/-- The binary64 value of the literal `0.2`: `3602879701896397 / 2 ^ 54`. -/
def r02 : ℚ := mkRat 3602879701896397 18014398509481984

/-- The binary64 value of the literal `0.3`: `5404319552844595 / 2 ^ 54`. -/
def r03 : ℚ := mkRat 5404319552844595 18014398509481984

theorem lookupAcc_updateAccFP (acc : List (String × RatingAcc)) (b : String) (r : ℚ)
    (b' : String) :
    lookupAcc (updateAccFP acc b r) b' =
      if b' = b then
        match lookupAcc acc b with
        | some v => some ⟨fsumPair v.sum_ratings r, v.count + 1⟩
        | none => some ⟨fsumPair 0 r, 1⟩
      else lookupAcc acc b' := by
  induction acc with
  | nil =>
    by_cases h : b' = b
    · simp [updateAccFP, lookupAcc, h]
    · have h' : ¬ b = b' := fun hh => h hh.symm
      simp [updateAccFP, lookupAcc, h, h']
  | cons kv rest ih =>
    obtain ⟨k, v⟩ := kv
    by_cases hkb : k = b
    · subst hkb
      by_cases h : b' = k
      · subst h; simp [updateAccFP, lookupAcc]
      · have h' : ¬ k = b' := fun hh => h hh.symm
        simp [updateAccFP, lookupAcc, h, h']
    · by_cases h : k = b'
      · subst h
        simp [updateAccFP, lookupAcc, hkb]
      · simp [updateAccFP, lookupAcc, hkb, h, ih]

/-- Combine an optional bucket count with `c` further ratings; a fresh
bucket exists only when at least one rating arrived. -/
def countPlus : Option Nat → Nat → Option Nat
  | some n, c => some (n + c)
  | none, c => if c = 0 then none else some c

/-- After a successful rounding-faithful accumulation pass over `l`, the
count of each brand's bucket is the starting count extended by the number
of present ratings of that brand in `l` (the counts, unlike the rounded
sums, are order-independent). -/
theorem aggLoopFP_ok_count (l : List Product) :
    ∀ acc acc' : List (String × RatingAcc), aggLoopFP l acc = .ok acc' →
      ∀ b, (lookupAcc acc' b).map RatingAcc.count
        = countPlus ((lookupAcc acc b).map RatingAcc.count) (ratingsOf l b).length := by
  induction l with
  | nil =>
    intro acc acc' h b
    simp only [aggLoopFP, Except.ok.injEq] at h
    subst h
    cases hl : lookupAcc acc b <;> simp [ratingsOf, countPlus, hl]
  | cons p rest ih =>
    intro acc acc' h b
    cases hr : p.rating with
    | none =>
      simp only [aggLoopFP, hr] at h
      rw [ratingsOf_cons_none p rest b hr]
      exact ih acc acc' h b
    | some r =>
      simp only [aggLoopFP, hr] at h
      split at h
      case isTrue hrange =>
        have hstep := ih _ _ h b
        rw [hstep, lookupAcc_updateAccFP]
        by_cases hb : b = p.brand
        · subst hb
          rw [ratingsOf_cons_some_eq p rest r hr rfl, List.length_cons, if_pos rfl]
          cases hl : lookupAcc acc p.brand with
          | none =>
            show some (1 + (ratingsOf rest p.brand).length)
                = if (ratingsOf rest p.brand).length + 1 = 0 then none
                  else some ((ratingsOf rest p.brand).length + 1)
            rw [if_neg (Nat.succ_ne_zero _), Nat.add_comm]
          | some v =>
            show some (v.count + 1 + (ratingsOf rest p.brand).length)
                = some (v.count + ((ratingsOf rest p.brand).length + 1))
            rw [Nat.add_assoc, Nat.add_comm 1 (ratingsOf rest p.brand).length]
        · rw [ratingsOf_cons_some_ne p rest (fun hh => hb hh.symm), if_neg hb]
      case isFalse => cases h

theorem updateAccFP_countGood {acc : List (String × RatingAcc)} {b : String} {r : ℚ}
    (hacc : ∀ kv ∈ acc, 1 ≤ kv.2.count) :
    ∀ kv ∈ updateAccFP acc b r, 1 ≤ kv.2.count := by
  induction acc with
  | nil =>
    intro kv hkv
    simp only [updateAccFP, List.mem_singleton] at hkv
    subst hkv
    exact Nat.le_refl 1
  | cons kv0 rest ih =>
    obtain ⟨k, v⟩ := kv0
    have hv := hacc (k, v) (List.mem_cons_self _ _)
    have hrest : ∀ kv ∈ rest, 1 ≤ kv.2.count :=
      fun kv hkv => hacc kv (List.mem_cons_of_mem _ hkv)
    by_cases hk : k = b
    · intro kv hkv
      simp only [updateAccFP, if_pos hk, List.mem_cons] at hkv
      rcases hkv with rfl | hkv
      · show 1 ≤ v.count + 1
        omega
      · exact hacc kv (List.mem_cons_of_mem _ hkv)
    · intro kv hkv
      simp only [updateAccFP, if_neg hk, List.mem_cons] at hkv
      rcases hkv with rfl | hkv
      · exact hv
      · exact ih hrest kv hkv

theorem aggLoopFP_ok_countGood (l : List Product) :
    ∀ acc acc' : List (String × RatingAcc), aggLoopFP l acc = .ok acc' →
      (∀ kv ∈ acc, 1 ≤ kv.2.count) → ∀ kv ∈ acc', 1 ≤ kv.2.count := by
  induction l with
  | nil =>
    intro acc acc' h hacc
    simp only [aggLoopFP, Except.ok.injEq] at h
    subst h; exact hacc
  | cons p rest ih =>
    intro acc acc' h hacc
    cases hr : p.rating with
    | none => simp only [aggLoopFP, hr] at h; exact ih acc acc' h hacc
    | some r =>
      simp only [aggLoopFP, hr] at h
      split at h
      case isTrue hrange => exact ih _ _ h (updateAccFP_countGood hacc)
      case isFalse => cases h

/-- Read-back of the rounding-faithful output list per brand. -/
theorem statsFor_outMapFP (acc : List (String × RatingAcc)) (b : String) :
    statsFor (acc.map fun kv => ⟨kv.1, fp64div kv.2.sum_ratings (kv.2.count : ℚ), kv.2.count⟩) b
      = (lookupAcc acc b).map fun v => (fp64div v.sum_ratings (v.count : ℚ), v.count) := by
  induction acc with
  | nil => simp [statsFor, lookupAcc]
  | cons kv rest ih =>
    by_cases h : kv.1 = b
    · simp [statsFor, lookupAcc, h]
    · simp only [List.map_cons, statsFor, lookupAcc, if_neg h]
      rw [List.find?_cons_of_neg _ (by simpa using h)]
      exact ih

/-- On success of the rounding-faithful aggregation, brand `b` appears in
the output iff it has a record with a present rating, and its items count
is the number of those ratings. -/
theorem computeFP_ok_items (d : Dataset) (s : List BrandStats)
    (h : compute_brand_avg_rating_fp d = .ok s) (b : String) :
    (statsFor s b).map (fun q => q.2)
      = if brandCount d b = 0 then none else some (brandCount d b) := by
  unfold compute_brand_avg_rating_fp at h
  cases hagg : aggLoopFP d.products [] with
  | error e => rw [hagg] at h; cases h
  | ok acc =>
    rw [hagg] at h
    have hgood : ∀ kv ∈ acc, 1 ≤ kv.2.count :=
      aggLoopFP_ok_countGood d.products [] acc hagg (by intro kv hkv; cases hkv)
    have hfilter : (acc.filter fun kv => kv.2.count != 0) = acc := by
      rw [List.filter_eq_self]
      intro kv hkv
      have h1 := hgood kv hkv
      simpa using by omega
    simp only [Except.map, hfilter, Except.ok.injEq] at h
    subst h
    rw [statsFor_outMapFP, Option.map_map]
    have hlook := aggLoopFP_ok_count d.products [] acc hagg b
    show (lookupAcc acc b).map RatingAcc.count = _
    rw [hlook]
    show countPlus none (ratingsOf d.products b).length = _
    rw [countPlus]
    rfl

set_option maxRecDepth 2000 in
/-- Claim C1 counterexample: the binary64 ratings 0.1, 0.2 and 0.3 of a
single brand accumulate to the rounded sum `0.6000000000000001`
(`5404319552844596 / 2 ^ 53`) in one order but to `0.6`
(`5404319552844595 / 2 ^ 53`) in the reversed order — `fsum` of the
running sum with each rating keeps only the rounded float — so the
avg_rating values (`0.20000000000000004` vs `0.19999999999999998`) differ
as well: permuting the records does not yield identical per-brand rating
sums and avg_rating values. -/
theorem aggregation_fp_not_perm_invariant :
    ([⟨"n1", "a", 1, some r01⟩, ⟨"n2", "a", 1, some r02⟩, ⟨"n3", "a", 1, some r03⟩]
        : List Product).Perm
      [⟨"n3", "a", 1, some r03⟩, ⟨"n2", "a", 1, some r02⟩, ⟨"n1", "a", 1, some r01⟩]
    ∧ aggLoopFP [⟨"n1", "a", 1, some r01⟩, ⟨"n2", "a", 1, some r02⟩,
          ⟨"n3", "a", 1, some r03⟩] []
        = .ok [("a", ⟨mkRat 5404319552844596 9007199254740992, 3⟩)]
    ∧ aggLoopFP [⟨"n3", "a", 1, some r03⟩, ⟨"n2", "a", 1, some r02⟩,
          ⟨"n1", "a", 1, some r01⟩] []
        = .ok [("a", ⟨mkRat 5404319552844595 9007199254740992, 3⟩)]
    ∧ compute_brand_avg_rating_fp ⟨[⟨"n1", "a", 1, some r01⟩, ⟨"n2", "a", 1, some r02⟩,
          ⟨"n3", "a", 1, some r03⟩]⟩
        = .ok [⟨"a", mkRat 7205759403792795 36028797018963968, 3⟩]
    ∧ compute_brand_avg_rating_fp ⟨[⟨"n3", "a", 1, some r03⟩, ⟨"n2", "a", 1, some r02⟩,
          ⟨"n1", "a", 1, some r01⟩]⟩
        = .ok [⟨"a", mkRat 7205759403792793 36028797018963968, 3⟩]
    ∧ (mkRat 5404319552844596 9007199254740992 : ℚ) ≠ mkRat 5404319552844595 9007199254740992
    ∧ statsFor [⟨"a", mkRat 7205759403792795 36028797018963968, 3⟩] "a"
        ≠ statsFor [⟨"a", mkRat 7205759403792793 36028797018963968, 3⟩] "a" := by
  have h1 : (0 : ℚ) ≤ r01 ∧ r01 ≤ 5 := by with_unfolding_all decide
  have h2 : (0 : ℚ) ≤ r02 ∧ r02 ≤ 5 := by with_unfolding_all decide
  have h3 : (0 : ℚ) ≤ r03 ∧ r03 ≤ 5 := by with_unfolding_all decide
  have hagg1 : aggLoopFP [⟨"n1", "a", 1, some r01⟩, ⟨"n2", "a", 1, some r02⟩,
        ⟨"n3", "a", 1, some r03⟩] []
      = .ok [("a", ⟨mkRat 5404319552844596 9007199254740992, 3⟩)] := by
    have e1 : fsumPair 0 r01 = r01 :=
      Rat.ext (by with_unfolding_all decide) (by with_unfolding_all decide)
    have e2 : fsumPair r01 r02 = mkRat 5404319552844596 18014398509481984 :=
      Rat.ext (by with_unfolding_all decide) (by with_unfolding_all decide)
    have e3 : fsumPair (mkRat 5404319552844596 18014398509481984) r03
        = mkRat 5404319552844596 9007199254740992 :=
      Rat.ext (by with_unfolding_all decide) (by with_unfolding_all decide)
    simp only [aggLoopFP]
    rw [if_pos h1]
    simp only [updateAccFP]
    rw [e1]
    rw [if_pos h2, e2, if_pos h3, e3]
    norm_num
  have hagg2 : aggLoopFP [⟨"n3", "a", 1, some r03⟩, ⟨"n2", "a", 1, some r02⟩,
        ⟨"n1", "a", 1, some r01⟩] []
      = .ok [("a", ⟨mkRat 5404319552844595 9007199254740992, 3⟩)] := by
    have e1 : fsumPair 0 r03 = r03 :=
      Rat.ext (by with_unfolding_all decide) (by with_unfolding_all decide)
    have e2 : fsumPair r03 r02 = mkRat 1 2 :=
      Rat.ext (by with_unfolding_all decide) (by with_unfolding_all decide)
    have e3 : fsumPair (mkRat 1 2) r01 = mkRat 5404319552844595 9007199254740992 :=
      Rat.ext (by with_unfolding_all decide) (by with_unfolding_all decide)
    simp only [aggLoopFP]
    rw [if_pos h3]
    simp only [updateAccFP]
    rw [e1]
    rw [if_pos h2, e2, if_pos h1, e3]
    norm_num
  have havg1 : fp64div (mkRat 5404319552844596 9007199254740992) ((3 : Nat) : ℚ)
      = mkRat 7205759403792795 36028797018963968 :=
    Rat.ext (by with_unfolding_all decide) (by with_unfolding_all decide)
  have havg2 : fp64div (mkRat 5404319552844595 9007199254740992) ((3 : Nat) : ℚ)
      = mkRat 7205759403792793 36028797018963968 :=
    Rat.ext (by with_unfolding_all decide) (by with_unfolding_all decide)
  refine ⟨(List.reverse_perm _).symm, hagg1, hagg2, ?_, ?_, ?_, ?_⟩
  · unfold compute_brand_avg_rating_fp
    rw [show (⟨[⟨"n1", "a", 1, some r01⟩, ⟨"n2", "a", 1, some r02⟩,
          ⟨"n3", "a", 1, some r03⟩]⟩ : Dataset).products
        = [⟨"n1", "a", 1, some r01⟩, ⟨"n2", "a", 1, some r02⟩,
          ⟨"n3", "a", 1, some r03⟩] from rfl, hagg1]
    show Except.ok [(⟨"a", fp64div (mkRat 5404319552844596 9007199254740992)
        ((3 : Nat) : ℚ), 3⟩ : BrandStats)]
        = Except.ok [(⟨"a", mkRat 7205759403792795 36028797018963968, 3⟩ : BrandStats)]
    rw [havg1]
  · unfold compute_brand_avg_rating_fp
    rw [show (⟨[⟨"n3", "a", 1, some r03⟩, ⟨"n2", "a", 1, some r02⟩,
          ⟨"n1", "a", 1, some r01⟩]⟩ : Dataset).products
        = [⟨"n3", "a", 1, some r03⟩, ⟨"n2", "a", 1, some r02⟩,
          ⟨"n1", "a", 1, some r01⟩] from rfl, hagg2]
    show Except.ok [(⟨"a", fp64div (mkRat 5404319552844595 9007199254740992)
        ((3 : Nat) : ℚ), 3⟩ : BrandStats)]
        = Except.ok [(⟨"a", mkRat 7205759403792793 36028797018963968, 3⟩ : BrandStats)]
    rw [havg2]
  · intro hsum
    have hnum := congrArg Rat.num hsum
    rw [show (mkRat 5404319552844596 9007199254740992 : ℚ).num = 1351079888211149 from by
        with_unfolding_all decide,
      show (mkRat 5404319552844595 9007199254740992 : ℚ).num = 5404319552844595 from by
        with_unfolding_all decide] at hnum
    exact absurd hnum (by decide)
  · intro heq
    rw [show statsFor [⟨"a", mkRat 7205759403792795 36028797018963968, 3⟩] "a"
        = some (mkRat 7205759403792795 36028797018963968, 3) from rfl,
      show statsFor [⟨"a", mkRat 7205759403792793 36028797018963968, 3⟩] "a"
        = some (mkRat 7205759403792793 36028797018963968, 3) from rfl] at heq
    have hq : (mkRat 7205759403792795 36028797018963968 : ℚ)
        = mkRat 7205759403792793 36028797018963968 := by
      injection heq with h
      exact congrArg Prod.fst h
    have hnum := congrArg Rat.num hq
    rw [show (mkRat 7205759403792795 36028797018963968 : ℚ).num = 7205759403792795 from by
        with_unfolding_all decide,
      show (mkRat 7205759403792793 36028797018963968 : ℚ).num = 7205759403792793 from by
        with_unfolding_all decide] at hnum
    exact absurd hnum (by decide)

/-- Claim C1 (amended): what permutation invariance survives the
per-record rounding.  For permuted datasets on which the
rounding-faithful `compute_brand_avg_rating_fp` succeeds, the outputs
report the same set of brands and, for each brand, the same items count;
the per-brand rating sums and avg_rating values agree only up to
floating-point rounding and can differ in the final ulp (see the
counterexample). -/
theorem aggregation_perm_brands_items (d1 d2 : Dataset)
    (hperm : d1.products.Perm d2.products) (s1 s2 : List BrandStats)
    (h1 : compute_brand_avg_rating_fp d1 = .ok s1)
    (h2 : compute_brand_avg_rating_fp d2 = .ok s2) (b : String) :
    (statsFor s1 b).isSome = (statsFor s2 b).isSome
    ∧ (statsFor s1 b).map (fun q => q.2) = (statsFor s2 b).map (fun q => q.2) := by
  have hp : (brandRatings d1 b).Perm (brandRatings d2 b) := hperm.filterMap _
  have hc : brandCount d1 b = brandCount d2 b := hp.length_eq
  have e1 := computeFP_ok_items d1 s1 h1 b
  have e2 := computeFP_ok_items d2 s2 h2 b
  have hmap : (statsFor s1 b).map (fun q => q.2) = (statsFor s2 b).map (fun q => q.2) := by
    rw [e1, e2, hc]
  refine ⟨?_, hmap⟩
  have hiso : ∀ o : Option (ℚ × Nat), o.isSome = (o.map fun q => q.2).isSome := by
    intro o; cases o <;> rfl
  rw [hiso (statsFor s1 b), hiso (statsFor s2 b), hmap]

set_option maxRecDepth 2000 in
/-- Witness for the amended C1 at a concrete two-record dataset and its
swap. -/
theorem aggregation_perm_brands_items_witness :
    (statsFor [⟨"a", 1, 1⟩, ⟨"b", 2, 1⟩] "a").isSome
        = (statsFor [⟨"b", 2, 1⟩, ⟨"a", 1, 1⟩] "a").isSome
    ∧ (statsFor [⟨"a", 1, 1⟩, ⟨"b", 2, 1⟩] "a").map (fun q => q.2)
        = (statsFor [⟨"b", 2, 1⟩, ⟨"a", 1, 1⟩] "a").map (fun q => q.2) :=
  aggregation_perm_brands_items
    ⟨[⟨"n1", "a", 1, some 1⟩, ⟨"n2", "b", 1, some 2⟩]⟩
    ⟨[⟨"n2", "b", 1, some 2⟩, ⟨"n1", "a", 1, some 1⟩]⟩
    (List.Perm.swap _ _ _)
    [⟨"a", 1, 1⟩, ⟨"b", 2, 1⟩] [⟨"b", 2, 1⟩, ⟨"a", 1, 1⟩]
    (by with_unfolding_all decide) (by with_unfolding_all decide) "a"

/-- Claim C2: every output row of a successful aggregation has
`0 ≤ avg_rating ≤ 5` and `items ≥ 1`; a brand with no present rating
never appears; and records with an absent rating contribute to neither
the sum nor the count (removing them changes nothing). -/
theorem aggregation_output_invariants (d : Dataset) (s : List BrandStats)
    (h : compute_brand_avg_rating d = .ok s) :
    (∀ st ∈ s, 0 ≤ st.avg_rating ∧ st.avg_rating ≤ 5 ∧ 1 ≤ st.items)
    ∧ (∀ b : String, (∀ p ∈ d.products, p.brand = b → p.rating = none) →
        statsFor s b = none)
    ∧ compute_brand_avg_rating ⟨d.products.filter fun p => p.rating.isSome⟩ = .ok s := by
  refine ⟨?_, ?_, ?_⟩
  · unfold compute_brand_avg_rating at h
    cases hagg : aggLoop d.products [] with
    | error e => rw [hagg] at h; cases h
    | ok acc =>
      rw [hagg] at h
      have hgood : accGood acc :=
        aggLoop_ok_accGood d.products [] acc hagg (by intro kv hkv; cases hkv)
      simp only [Except.map, Except.ok.injEq] at h
      subst h
      intro st hst
      simp only [List.mem_map, List.mem_filter] at hst
      obtain ⟨kv, ⟨hkv, _⟩, rfl⟩ := hst
      obtain ⟨hc, hs0, hs5⟩ := hgood kv hkv
      have hcpos : (0 : ℚ) < (kv.2.count : ℚ) := by
        have : (1 : ℚ) ≤ (kv.2.count : ℚ) := by exact_mod_cast hc
        linarith
      refine ⟨div_nonneg hs0 (le_of_lt hcpos), ?_, hc⟩
      rw [div_le_iff₀ hcpos]
      linarith
  · intro b hb
    rw [compute_ok_statsFor d s h b]
    rw [brandCount, brandRatings_eq_nil d b hb]
    simp
  · unfold compute_brand_avg_rating at h ⊢
    rw [show (⟨d.products.filter fun p => p.rating.isSome⟩ : Dataset).products
        = d.products.filter (fun p => p.rating.isSome) from rfl]
    rw [aggLoop_filter_present]
    exact h

/-- Witness for C2 at a concrete dataset with one rated and one unrated
record. -/
theorem aggregation_output_invariants_witness :
    (∀ st ∈ ([⟨"a", 4, 1⟩] : List BrandStats),
        0 ≤ st.avg_rating ∧ st.avg_rating ≤ 5 ∧ 1 ≤ st.items)
    ∧ (∀ b : String,
        (∀ p ∈ (⟨[⟨"n1", "a", 10, some 4⟩, ⟨"n2", "b", 20, none⟩]⟩ : Dataset).products,
          p.brand = b → p.rating = none) →
        statsFor [⟨"a", 4, 1⟩] b = none)
    ∧ compute_brand_avg_rating
        ⟨(⟨[⟨"n1", "a", 10, some 4⟩, ⟨"n2", "b", 20, none⟩]⟩ : Dataset).products.filter
          fun p => p.rating.isSome⟩ = .ok [⟨"a", 4, 1⟩] :=
  aggregation_output_invariants
    ⟨[⟨"n1", "a", 10, some 4⟩, ⟨"n2", "b", 20, none⟩]⟩ [⟨"a", 4, 1⟩]
    (by with_unfolding_all decide)

/-! ### Reader lemmas -/

/-- A successful `parse_price` is nonnegative (the negative branch fails). -/
theorem parse_price_nonneg (raw : String) (v : ℚ) (h : parse_price raw = .ok v) :
    0 ≤ v := by
  simp only [parse_price] at h
  by_cases h0 : pyStrip raw.toList = []
  · rw [if_pos h0] at h; cases h
  · rw [if_neg h0] at h
    cases h1 : pyFloat (replaceComma (stripThousands (stripCurrency (pyStrip raw.toList)))) with
    | none => rw [h1] at h; cases h
    | some w =>
      rw [h1] at h
      dsimp only at h
      by_cases h2 : w < 0
      · rw [if_pos h2] at h; cases h
      · rw [if_neg h2] at h
        cases h
        exact le_of_not_lt h2

theorem parse_rating_ok_bounds (raw : String) (r : ℚ)
    (h : parse_rating raw = .ok (some r)) : 0 ≤ r ∧ r ≤ 5 := by
  simp only [parse_rating] at h
  by_cases h0 : pyStrip raw.toList = []
  · rw [if_pos h0] at h; cases h
  · rw [if_neg h0] at h
    by_cases h1 : pyLower (pyStrip raw.toList) ∈ ratingSentinels
    · rw [if_pos h1] at h; cases h
    · rw [if_neg h1] at h
      cases h2 : pyFloat (replaceComma (pyStrip raw.toList)) with
      | none => rw [h2] at h; cases h
      | some w =>
        rw [h2] at h
        dsimp only at h
        by_cases h3 : 0 ≤ w ∧ w ≤ 5
        · rw [if_pos h3] at h
          cases h
          exact h3
        · rw [if_neg h3] at h; cases h

theorem parse_price_field_nonneg (o : Option String) (v : ℚ)
    (h : parse_price_field o = .ok v) : 0 ≤ v := by
  cases o with
  | none => cases h
  | some s => exact parse_price_nonneg s v h

theorem parse_rating_field_bounds (o : Option String) (r : ℚ)
    (h : parse_rating_field o = .ok (some r)) : 0 ≤ r ∧ r ≤ 5 := by
  cases o with
  | none => cases h
  | some s => exact parse_rating_ok_bounds s r h

/-- A product produced by the row parser satisfies the Record invariant. -/
theorem parse_row_inner_ok_invariant (row : RawRow) (p : Product)
    (h : parse_row_inner row = .ok p) :
    0 ≤ p.price ∧ ∀ r, p.rating = some r → 0 ≤ r ∧ r ≤ 5 := by
  simp only [parse_row_inner] at h
  cases h1 : pyStripField row.name with
  | error e => rw [h1] at h; dsimp only at h; cases h
  | ok nameRaw =>
    rw [h1] at h
    dsimp only at h
    by_cases hname : nameRaw = []
    · rw [if_pos hname] at h; cases h
    · rw [if_neg hname] at h
      cases h2 : normalize_brand_field row.brand with
      | error e => rw [h2] at h; dsimp only at h; cases h
      | ok brand =>
        rw [h2] at h
        dsimp only at h
        cases h3 : parse_price_field row.price with
        | error e => rw [h3] at h; dsimp only at h; cases h
        | ok price =>
          rw [h3] at h
          dsimp only at h
          cases h4 : parse_rating_field row.rating with
          | error e => rw [h4] at h; dsimp only at h; cases h
          | ok rating =>
            rw [h4] at h
            dsimp only at h
            cases h
            refine ⟨parse_price_field_nonneg _ _ h3, ?_⟩
            intro r hr
            subst hr
            exact parse_rating_field_bounds _ _ h4

/-- The contextual wrapper succeeds exactly when the inner parser does,
with the same product. -/
theorem parse_row_ok_iff (row : RawRow) (path : String) (n : Nat) (p : Product) :
    parse_row row path n = .ok p ↔ parse_row_inner row = .ok p := by
  unfold parse_row
  cases h : parse_row_inner row with
  | ok q => simp
  | error e => cases e <;> simp

theorem readRows_ok (path : String) :
    ∀ (rows : List RawRow) (lineNo : Nat) (ps : List Product),
      readRows path lineNo rows = .ok ps →
      (∀ row ∈ rows, (parse_row_inner row).isOk = true)
      ∧ ∀ p ∈ ps, 0 ≤ p.price ∧ ∀ r, p.rating = some r → 0 ≤ r ∧ r ≤ 5 := by
  intro rows
  induction rows with
  | nil =>
    intro lineNo ps h
    simp only [readRows, Except.ok.injEq] at h
    subst h
    refine ⟨?_, ?_⟩
    · intro row hr; exact absurd hr (List.not_mem_nil _)
    · intro p hp; exact absurd hp (List.not_mem_nil _)
  | cons row rest ih =>
    intro lineNo ps h
    simp only [readRows] at h
    cases h1 : parse_row row path lineNo with
    | error e => rw [h1] at h; dsimp only at h; cases h
    | ok p =>
      rw [h1] at h
      dsimp only at h
      cases h2 : readRows path (lineNo + 1) rest with
      | error e => rw [h2] at h; dsimp only at h; cases h
      | ok ps' =>
        rw [h2] at h
        dsimp only at h
        cases h
        have hinner := (parse_row_ok_iff row path lineNo p).mp h1
        obtain ⟨hall, hinv⟩ := ih (lineNo + 1) ps' h2
        refine ⟨?_, ?_⟩
        · intro r hr
          rcases List.mem_cons.mp hr with rfl | hr
          · rw [hinner]; rfl
          · exact hall r hr
        · intro q hq
          rcases List.mem_cons.mp hq with rfl | hq
          · exact parse_row_inner_ok_invariant row q hinner
          · exact hinv q hq

theorem resolvePhase_ok_eq (fs : FS) :
    ∀ (files l : List String), (resolvePhase fs files).2 = .ok l → l = files := by
  intro files
  induction files with
  | nil =>
    intro l h
    simp only [resolvePhase, Except.ok.injEq] at h
    exact h.symm
  | cons p rest ih =>
    intro l h
    simp only [resolvePhase] at h
    cases h1 : ensure_file fs p with
    | error e => rw [h1] at h; dsimp only at h; cases h
    | ok q =>
      rw [h1] at h
      dsimp only at h
      have hq : q = p := by
        simp only [ensure_file] at h1
        split at h1
        · cases h1
        · split at h1
          · cases h1
          · split at h1
            · cases h1
            · cases h1; rfl
      cases h2 : (resolvePhase fs rest).2 with
      | error e => rw [h2] at h; simp only [Except.map] at h; cases h
      | ok l' =>
        rw [h2] at h
        simp only [Except.map, Except.ok.injEq] at h
        subst h
        rw [hq, ih l' h2]

theorem readPhase_ok (fs : FS) :
    ∀ (files : List String) (ps : List Product), (readPhase fs files).2 = .ok ps →
      (∀ f ∈ files, ∀ row ∈ fs.rows f, (parse_row_inner row).isOk = true)
      ∧ ∀ p ∈ ps, 0 ≤ p.price ∧ ∀ r, p.rating = some r → 0 ≤ r ∧ r ≤ 5 := by
  intro files
  induction files with
  | nil =>
    intro ps h
    simp only [readPhase, Except.ok.injEq] at h
    subst h
    refine ⟨?_, ?_⟩
    · intro f hf; exact absurd hf (List.not_mem_nil _)
    · intro p hp; exact absurd hp (List.not_mem_nil _)
  | cons f rest ih =>
    intro ps h
    simp only [readPhase] at h
    cases h1 : read_single f (fs.rows f) with
    | error e => rw [h1] at h; dsimp only at h; cases h
    | ok qs =>
      rw [h1] at h
      dsimp only at h
      cases h2 : (readPhase fs rest).2 with
      | error e => rw [h2] at h; simp only [Except.map] at h; cases h
      | ok ps' =>
        rw [h2] at h
        simp only [Except.map, Except.ok.injEq] at h
        subst h
        obtain ⟨hrows, hinv⟩ := readRows_ok f (fs.rows f) 2 qs h1
        obtain ⟨hrest, hinv'⟩ := ih ps' h2
        refine ⟨?_, ?_⟩
        · intro g hg row hr
          rcases List.mem_cons.mp hg with rfl | hg
          · exact hrows row hr
          · exact hrest g hg row hr
        · intro p hp
          rcases List.mem_append.mp hp with hp | hp
          · exact hinv p hp
          · exact hinv' p hp

/-- Claim C3: every product in a successfully loaded dataset satisfies the
Record invariant (`price ≥ 0`, rating absent or in `[0, 5]`), and a
successful load means every row of every file parsed without error — a
faulty row aborts the load and is never stored. -/
theorem load_ok_record_invariants (fs : FS) (files : List String) (ps : List Product)
    (h : (load fs files).2 = .ok ps) :
    (∀ p ∈ ps, 0 ≤ p.price ∧ ∀ r, p.rating = some r → 0 ≤ r ∧ r ≤ 5)
    ∧ ∀ f ∈ files, ∀ row ∈ fs.rows f, (parse_row_inner row).isOk = true := by
  simp only [load] at h
  cases h1 : (resolvePhase fs files).2 with
  | error e => rw [h1] at h; dsimp only at h; cases h
  | ok canonical =>
    rw [h1] at h
    dsimp only at h
    have hc : canonical = files := resolvePhase_ok_eq fs files canonical h1
    subst hc
    split at h
    · dsimp only at h; cases h
    · dsimp only at h
      obtain ⟨hrows, hinv⟩ := readPhase_ok fs canonical ps h
      exact ⟨hinv, hrows⟩

/-- Witness for C3 on a one-file, one-row file system. -/
theorem load_ok_record_invariants_witness :
    (∀ p ∈ [(⟨"W", "acme", 10, some (9 / 2)⟩ : Product)],
        0 ≤ p.price ∧ ∀ r, p.rating = some r → 0 ≤ r ∧ r ≤ 5)
    ∧ ∀ f ∈ ["a"],
        ∀ row ∈ FS.rows ⟨fun _ => true, fun _ => true, fun _ => true,
            fun _ => [⟨some "W", some "Acme", some "10", some "4.5"⟩]⟩ f,
          (parse_row_inner row).isOk = true :=
  load_ok_record_invariants
    ⟨fun _ => true, fun _ => true, fun _ => true,
      fun _ => [⟨some "W", some "Acme", some "10", some "4.5"⟩]⟩
    ["a"] [⟨"W", "acme", 10, some (9 / 2)⟩] (by with_unfolding_all decide)

/-- The row loop reports the first failing row with the file path and its
1-based line number prefixed to the original message. -/
theorem readRows_first_error (path : String) :
    ∀ (rows : List RawRow) (k lineNo : Nat) (msg : String) (hk : k < rows.length),
      (∀ row ∈ rows.take k, (parse_row_inner row).isOk = true) →
      parse_row_inner (rows.get ⟨k, hk⟩) = .error (.dataError msg) →
      readRows path lineNo rows
        = .error (.dataError (path ++ ":" ++ toString (lineNo + k) ++ ": " ++ msg)) := by
  intro rows
  induction rows with
  | nil =>
    intro k lineNo msg hk
    exact absurd hk (by simp)
  | cons row rest ih =>
    intro k lineNo msg hk hok herr
    cases k with
    | zero =>
      simp only [List.get] at herr
      simp only [readRows, parse_row, herr, Nat.add_zero]
    | succ k' =>
      have hhead : (parse_row_inner row).isOk = true :=
        hok row (by simp [List.take_succ_cons])
      obtain ⟨p, hp⟩ : ∃ p, parse_row_inner row = .ok p := by
        cases hpr : parse_row_inner row with
        | ok p => exact ⟨p, rfl⟩
        | error e => rw [hpr] at hhead; cases hhead
      have htail := ih k' (lineNo + 1) msg (by simpa using hk)
        (fun r hr => hok r (by simp [List.take_succ_cons]; right; exact hr))
        (by simpa using herr)
      simp only [readRows, parse_row, hp, htail]
      rw [show lineNo + 1 + k' = lineNo + (k' + 1) from by omega]

/-- Claim C6: a `DataError` on a data row surfaces with the message
augmented to `<file>:<line>: <message>`, where the first data row is line
2 and row `k` (0-based) is line `k + 2`; the read aborts at the first
failing row and never yields a partial product list. -/
theorem read_single_first_error (path : String) (rows : List RawRow) (k : Nat)
    (msg : String) (hk : k < rows.length)
    (hok : ∀ row ∈ rows.take k, (parse_row_inner row).isOk = true)
    (herr : parse_row_inner (rows.get ⟨k, hk⟩) = .error (.dataError msg)) :
    read_single path rows
      = .error (.dataError (path ++ ":" ++ toString (k + 2) ++ ": " ++ msg))
    ∧ ∀ ps, read_single path rows ≠ .ok ps := by
  have h := readRows_first_error path rows k 2 msg hk hok herr
  rw [show 2 + k = k + 2 from by omega] at h
  have h' : read_single path rows
      = .error (.dataError (path ++ ":" ++ toString (k + 2) ++ ": " ++ msg)) := h
  refine ⟨h', ?_⟩
  intro ps hps
  rw [h'] at hps
  cases hps

/-- Witness for C6: the second data row (line 3 of the file) carries an
out-of-range rating. -/
theorem read_single_first_error_witness :
    read_single "f.csv"
        [⟨some "W", some "Acme", some "10", some "4.5"⟩,
          ⟨some "X", some "B", some "10", some "9"⟩]
      = .error (.dataError "f.csv:3: Rating out of range [0, 5]")
    ∧ ∀ ps, read_single "f.csv"
        [⟨some "W", some "Acme", some "10", some "4.5"⟩,
          ⟨some "X", some "B", some "10", some "9"⟩] ≠ .ok ps :=
  read_single_first_error "f.csv"
    [⟨some "W", some "Acme", some "10", some "4.5"⟩,
      ⟨some "X", some "B", some "10", some "9"⟩]
    1 "Rating out of range [0, 5]" (by decide)
    (by with_unfolding_all decide) (by with_unfolding_all decide)

/-- Claim C5 (behavior at the failing input): a row shorter than the
header stores `None` for the missing fields, and the reader then raises an
untyped `AttributeError` (from `None.strip()`) instead of treating the
field as an empty string and raising `DataError`; an empty name on a
complete row does raise the typed, context-augmented `DataError`, and a
complete valid row parses. -/
theorem parse_row_missing_field_behavior :
    parse_row ⟨some "Widget", some "Acme", none, none⟩ "data.csv" 2
      = .error .attributeError
    ∧ parse_row ⟨some "   ", some "Acme", some "10", some "4"⟩ "data.csv" 2
      = .error (.dataError "data.csv:2: Empty product name")
    ∧ parse_row ⟨some "Widget", some "Acme", some "10", some "4"⟩ "data.csv" 2
      = .ok ⟨"Widget", "acme", 10, some 4⟩ := by
  refine ⟨?_, ?_, ?_⟩ <;> with_unfolding_all decide

/-! ### Trace structure of `load` (claim C7) -/

/-- The paths whose resolution `load` attempts: every path in argument
order up to and including the first invalid one. -/
def resolveAttempts (fs : FS) : List String → List String
  | [] => []
  | p :: rest =>
    match ensure_file fs p with
    | .error _ => [p]
    | .ok _ => p :: resolveAttempts fs rest

/-- Whether every path of the list resolves. -/
def allResolved (fs : FS) (files : List String) : Bool :=
  files.all fun p => (ensure_file fs p).isOk

/-- The files the reading loop touches: every file in order up to and
including the first one whose rows fail. -/
def readAttempts (fs : FS) : List String → List String
  | [] => []
  | p :: rest =>
    match read_single p (fs.rows p) with
    | .error _ => [p]
    | .ok _ => p :: readAttempts fs rest

/-- One open/close block per file, in order. -/
def openCloseTrace : List String → List Ev
  | [] => []
  | p :: rest => Ev.openF p :: Ev.closeF p :: openCloseTrace rest

theorem ensure_file_ok_eq (fs : FS) (p q : String)
    (h : ensure_file fs p = .ok q) : q = p := by
  simp only [ensure_file] at h
  split at h
  · cases h
  · split at h
    · cases h
    · split at h
      · cases h
      · cases h; rfl

theorem resolvePhase_trace (fs : FS) :
    ∀ files : List String,
      (resolvePhase fs files).1 = (resolveAttempts fs files).map Ev.resolve := by
  intro files
  induction files with
  | nil => rfl
  | cons p rest ih =>
    simp only [resolvePhase, resolveAttempts]
    cases h1 : ensure_file fs p with
    | error e => rfl
    | ok q => simp [ih]

theorem resolvePhase_all_ok (fs : FS) :
    ∀ files : List String, allResolved fs files = true →
      (resolvePhase fs files).2 = .ok files := by
  intro files
  induction files with
  | nil => intro _; rfl
  | cons p rest ih =>
    intro hall
    simp only [allResolved, List.all_cons, Bool.and_eq_true] at hall
    obtain ⟨hp, hrest⟩ := hall
    obtain ⟨q, hq⟩ : ∃ q, ensure_file fs p = .ok q := by
      cases he : ensure_file fs p with
      | ok q => exact ⟨q, rfl⟩
      | error e => rw [he] at hp; cases hp
    have hqp : q = p := ensure_file_ok_eq fs p q hq
    subst hqp
    simp only [resolvePhase, hq]
    rw [ih hrest]
    rfl

theorem resolvePhase_not_resolved (fs : FS) :
    ∀ files : List String, allResolved fs files = false →
      ∃ e, (resolvePhase fs files).2 = .error e := by
  intro files
  induction files with
  | nil => intro h; cases h
  | cons p rest ih =>
    intro hall
    simp only [allResolved, List.all_cons, Bool.and_eq_true] at hall
    cases he : ensure_file fs p with
    | error e => exact ⟨e, by simp [resolvePhase, he]⟩
    | ok q =>
      have hisok : (ensure_file fs p).isOk = true := by rw [he]; rfl
      rw [hisok] at hall
      have hrest : allResolved fs rest = false := by
        simp only [allResolved]
        simpa using hall
      obtain ⟨e, he2⟩ := ih hrest
      refine ⟨e, ?_⟩
      simp only [resolvePhase, he, he2]
      rfl

theorem readPhase_trace (fs : FS) :
    ∀ files : List String,
      (readPhase fs files).1 = openCloseTrace (readAttempts fs files) := by
  intro files
  induction files with
  | nil => rfl
  | cons p rest ih =>
    simp only [readPhase, readAttempts]
    cases h1 : read_single p (fs.rows p) with
    | error e => rfl
    | ok ps => simp [openCloseTrace, ih]

theorem load_fst (fs : FS) (files : List String) :
    (load fs files).1 =
      match (resolvePhase fs files).2 with
      | .error _ => (resolvePhase fs files).1
      | .ok canonical =>
        if canonical = [] then (resolvePhase fs files).1
        else (resolvePhase fs files).1 ++ (readPhase fs canonical).1 := by
  simp only [load]
  cases h : (resolvePhase fs files).2 with
  | error e => rfl
  | ok canonical =>
    dsimp only
    by_cases hc : canonical = []
    · rw [if_pos hc, if_pos hc]
    · rw [if_neg hc, if_neg hc]

/-- A two-file file system with one valid data row per file, used to
exhibit the event order of `load`. -/
def fsTwoGood : FS where
  pathExists := fun _ => true
  isFile := fun _ => true
  readable := fun _ => true
  rows := fun _ => [⟨some "W", some "Acme", some "10", some ""⟩]

/-- Claim C7 counterexample: with two valid single-row files, `load`
resolves path "b" before file "a" is opened, so the claimed per-file
interleaving (resolve, open, consume, close one file before the next is
touched) does not hold: the actual trace resolves both paths first. -/
theorem load_not_per_file_sequential :
    (load fsTwoGood ["a", "b"]).1
      = [.resolve "a", .resolve "b", .openF "a", .closeF "a", .openF "b", .closeF "b"]
    ∧ (load fsTwoGood ["a", "b"]).1
      ≠ [.resolve "a", .openF "a", .closeF "a", .resolve "b", .openF "b", .closeF "b"] := by
  refine ⟨?_, ?_⟩ <;> with_unfolding_all decide

/-- Claim C7 (amended): `load` first resolves every path in argument
order, stopping at the first invalid one (classified as
not-found / not-a-file / permission error) with no file opened; only
then, if all paths resolved and the list is nonempty, it opens, fully
consumes, and closes each file in order — each file's close precedes the
next file's open — stopping after the first file whose rows fail. -/
theorem load_trace_phases (fs : FS) (files : List String) :
    ((load fs files).1
      = (resolveAttempts fs files).map Ev.resolve
        ++ (if allResolved fs files = true ∧ files ≠ [] then
              openCloseTrace (readAttempts fs files) else []))
    ∧ (∀ p, fs.pathExists p = false →
        ensure_file fs p = .error (.fileNotFound ("File not found: " ++ p)))
    ∧ (∀ p, fs.pathExists p = true → fs.isFile p = false →
        ensure_file fs p = .error (.isADirectoryError ("Not a file: " ++ p)))
    ∧ (∀ p, fs.pathExists p = true → fs.isFile p = true → fs.readable p = false →
        ensure_file fs p = .error (.permissionError ("File is not readable: " ++ p))) := by
  refine ⟨?_, ?_, ?_, ?_⟩
  · rw [load_fst]
    cases hall : allResolved fs files with
    | false =>
      obtain ⟨e, he⟩ := resolvePhase_not_resolved fs files hall
      rw [he, resolvePhase_trace]
      simp [hall]
    | true =>
      rw [resolvePhase_all_ok fs files hall]
      dsimp only
      by_cases hnil : files = []
      · subst hnil
        simp [resolvePhase, resolveAttempts]
      · rw [if_neg hnil, resolvePhase_trace, readPhase_trace]
        simp [hnil]
  · intro p hp
    simp [ensure_file, hp]
  · intro p hp hf
    simp [ensure_file, hp, hf]
  · intro p hp hf hr
    simp [ensure_file, hp, hf, hr]

/-- Witness for the amended C7 at a concrete missing path. -/
theorem load_trace_phases_witness :
    ensure_file ⟨fun _ => false, fun _ => true, fun _ => true, fun _ => []⟩ "x"
      = .error (.fileNotFound ("File not found: " ++ "x")) :=
  (load_trace_phases ⟨fun _ => false, fun _ => true, fun _ => true, fun _ => []⟩ []).2.1
    "x" rfl

/-! ### Idempotence of brand normalization (claim C10) -/

theorem toNat_ofNat_valid (n : Nat) (h : n < 55296) : (Char.ofNat n).toNat = n := by
  rw [Char.ofNat, dif_pos (Or.inl h)]
  rfl

theorem char_ne_of_toNat {c d : Char} (h : c.toNat ≠ d.toNat) : c ≠ d :=
  fun hh => h (by rw [hh])

theorem bool_false_of_not {b : Bool} (h : ¬ b = true) : b = false := by
  cases b
  · rfl
  · exact absurd rfl h

/-- No character with code point 64 or above is whitespace. -/
theorem isWs_false_of_64 (c : Char) (h : 64 ≤ c.toNat) : isWs c = false := by
  rw [isWs,
    beq_eq_false_iff_ne.mpr (@char_ne_of_toNat c ' ' (show c.toNat ≠ 32 from by omega)),
    beq_eq_false_iff_ne.mpr (@char_ne_of_toNat c '\t' (show c.toNat ≠ 9 from by omega)),
    beq_eq_false_iff_ne.mpr (@char_ne_of_toNat c '\n' (show c.toNat ≠ 10 from by omega)),
    beq_eq_false_iff_ne.mpr (@char_ne_of_toNat c '\r' (show c.toNat ≠ 13 from by omega)),
    beq_eq_false_iff_ne.mpr (@char_ne_of_toNat c '\x0b' (show c.toNat ≠ 11 from by omega)),
    beq_eq_false_iff_ne.mpr (@char_ne_of_toNat c '\x0c' (show c.toNat ≠ 12 from by omega))]
  rfl

theorem lowerChar_toNat_upper (c : Char) (h : 65 ≤ c.toNat ∧ c.toNat ≤ 90) :
    (lowerChar c).toNat = c.toNat + 32 := by
  rw [lowerChar, if_pos h, toNat_ofNat_valid (c.toNat + 32) (by omega)]

theorem lowerChar_eq_self (c : Char) (h : ¬(65 ≤ c.toNat ∧ c.toNat ≤ 90)) :
    lowerChar c = c := by
  rw [lowerChar, if_neg h]

theorem lowerChar_idem (c : Char) : lowerChar (lowerChar c) = lowerChar c := by
  by_cases h : 65 ≤ c.toNat ∧ c.toNat ≤ 90
  · apply lowerChar_eq_self
    rw [lowerChar_toNat_upper c h]
    omega
  · rw [lowerChar_eq_self c h, lowerChar_eq_self c h]

theorem isWs_lowerChar (c : Char) : isWs (lowerChar c) = isWs c := by
  by_cases h : 65 ≤ c.toNat ∧ c.toNat ≤ 90
  · rw [isWs_false_of_64 c (by omega),
      isWs_false_of_64 (lowerChar c) (by rw [lowerChar_toNat_upper c h]; omega)]
  · rw [lowerChar_eq_self c h]

theorem lowerChar_space : lowerChar ' ' = ' ' := rfl

theorem dropWhile_isWs_map_lower (l : List Char) :
    (l.map lowerChar).dropWhile isWs = (l.dropWhile isWs).map lowerChar := by
  induction l with
  | nil => rfl
  | cons c rest ih =>
    rw [List.map_cons, List.dropWhile_cons, List.dropWhile_cons, isWs_lowerChar]
    by_cases h : isWs c = true
    · rw [if_pos h, if_pos h, ih]
    · rw [if_neg h, if_neg h, List.map_cons]

theorem pyStrip_map_lower (l : List Char) :
    pyStrip (l.map lowerChar) = (pyStrip l).map lowerChar := by
  rw [pyStrip, pyStrip, dropWhile_isWs_map_lower, ← List.map_reverse,
    dropWhile_isWs_map_lower, ← List.map_reverse]

theorem collapseWs_map_lower (l : List Char) :
    ∀ b, collapseWs (l.map lowerChar) b = (collapseWs l b).map lowerChar := by
  induction l with
  | nil => intro b; rfl
  | cons c rest ih =>
    intro b
    rw [List.map_cons, collapseWs, collapseWs, isWs_lowerChar]
    by_cases h : isWs c = true
    · rw [if_pos h, if_pos h]
      cases b <;> simp [ih, lowerChar_space]
    · rw [if_neg h, if_neg h, List.map_cons, ih]

theorem pyLower_idem (l : List Char) : pyLower (pyLower l) = pyLower l := by
  rw [pyLower, pyLower, List.map_map]
  exact List.map_congr_left fun a _ => lowerChar_idem a

theorem collapseWs_idem (l : List Char) :
    ∀ b, collapseWs (collapseWs l b) b = collapseWs l b := by
  induction l with
  | nil => intro b; rfl
  | cons c rest ih =>
    intro b
    by_cases h : isWs c = true
    · cases b
      · rw [show collapseWs (c :: rest) false = ' ' :: collapseWs rest true from by
              rw [collapseWs, if_pos h]; rfl]
        rw [show ∀ t, collapseWs (' ' :: t) false = ' ' :: collapseWs t true from fun t => by
              rw [collapseWs, if_pos (show isWs ' ' = true from rfl)]; rfl]
        rw [ih true]
      · rw [show collapseWs (c :: rest) true = collapseWs rest true from by
              rw [collapseWs, if_pos h]; rfl]
        exact ih true
    · rw [show collapseWs (c :: rest) b = c :: collapseWs rest false from by
            rw [collapseWs, if_neg h]]
      rw [show collapseWs (c :: collapseWs rest false) b = c :: collapseWs (collapseWs rest false) false from by
            rw [collapseWs, if_neg h]]
      rw [ih false]

theorem mem_of_getLast?_eq {α : Type} : ∀ (l : List α) (a : α), l.getLast? = some a → a ∈ l
  | [], _, h => by cases h
  | [x], a, h => by
    rw [List.getLast?_singleton] at h
    cases h
    exact List.mem_singleton_self x
  | x :: y :: l, a, h => by
    rw [List.getLast?_cons_cons] at h
    exact List.mem_cons_of_mem x (mem_of_getLast?_eq (y :: l) a h)

theorem getLast?_cons_of_ne_nil {α : Type} (x : α) (l : List α) (h : l ≠ []) :
    (x :: l).getLast? = l.getLast? := by
  cases l with
  | nil => exact absurd rfl h
  | cons y l' => exact List.getLast?_cons_cons

/-- If collapsing yields the empty list, every input character was
whitespace. -/
theorem collapseWs_eq_nil (l : List Char) :
    ∀ b, collapseWs l b = [] → ∀ c ∈ l, isWs c = true := by
  induction l with
  | nil => intro b _ c hc; exact absurd hc (List.not_mem_nil c)
  | cons x rest ih =>
    intro b h c hc
    by_cases hx : isWs x = true
    · cases b
      · rw [show collapseWs (x :: rest) false = ' ' :: collapseWs rest true from by
              rw [collapseWs, if_pos hx]; rfl] at h
        cases h
      · rw [show collapseWs (x :: rest) true = collapseWs rest true from by
              rw [collapseWs, if_pos hx]; rfl] at h
        rcases List.mem_cons.mp hc with rfl | hc
        · exact hx
        · exact ih true h c hc
    · rw [show collapseWs (x :: rest) b = x :: collapseWs rest false from by
            rw [collapseWs, if_neg hx]] at h
      cases h

/-- Collapsing a list whose last character is not whitespace ends in a
non-whitespace character. -/
theorem collapseWs_getLast (l : List Char) :
    ∀ b c, (∀ d, l.getLast? = some d → isWs d = false) →
      (collapseWs l b).getLast? = some c → isWs c = false := by
  induction l with
  | nil =>
    intro b c _ h
    simp [collapseWs] at h
  | cons x rest ih =>
    intro b c hlast h
    cases rest with
    | nil =>
      have hx : isWs x = false := hlast x (List.getLast?_singleton x)
      rw [show collapseWs [x] b = [x] from by
            rw [collapseWs, if_neg (by simp [hx])]
            rfl] at h
      rw [List.getLast?_singleton] at h
      cases h
      exact hx
    | cons y rest' =>
      have hlast' : ∀ d, (y :: rest').getLast? = some d → isWs d = false := fun d hd =>
        hlast d (by rw [List.getLast?_cons_cons]; exact hd)
      have hne : ∀ b', collapseWs (y :: rest') b' ≠ [] := by
        intro b' hnil
        obtain ⟨d, hd⟩ : ∃ d, (y :: rest').getLast? = some d := by
          cases hg : (y :: rest').getLast? with
          | none => rw [List.getLast?_eq_none_iff] at hg; cases hg
          | some d => exact ⟨d, rfl⟩
        have hdw := collapseWs_eq_nil (y :: rest') b' hnil d (mem_of_getLast?_eq _ d hd)
        rw [hlast' d hd] at hdw
        cases hdw
      by_cases hx : isWs x = true
      · cases b
        · rw [show collapseWs (x :: y :: rest') false = ' ' :: collapseWs (y :: rest') true from by
                rw [collapseWs, if_pos hx]; rfl] at h
          rw [getLast?_cons_of_ne_nil ' ' _ (hne true)] at h
          exact ih true c hlast' h
        · rw [show collapseWs (x :: y :: rest') true = collapseWs (y :: rest') true from by
                rw [collapseWs, if_pos hx]; rfl] at h
          exact ih true c hlast' h
      · rw [show collapseWs (x :: y :: rest') b = x :: collapseWs (y :: rest') false from by
              rw [collapseWs, if_neg hx]] at h
        rw [getLast?_cons_of_ne_nil x _ (hne false)] at h
        exact ih false c hlast' h

/-- Collapsing a list whose head is not whitespace starts with that same
non-whitespace character. -/
theorem collapseWs_head (m : List Char) (b : Bool)
    (h : ∀ d, m.head? = some d → isWs d = false) :
    ∀ d, (collapseWs m b).head? = some d → isWs d = false := by
  cases m with
  | nil => intro d hd; simp [collapseWs] at hd
  | cons x rest =>
    have hx : isWs x = false := h x rfl
    intro d hd
    rw [show collapseWs (x :: rest) b = x :: collapseWs rest false from by
          rw [collapseWs, if_neg (by simp [hx])]] at hd
    rw [List.head?_cons] at hd
    cases hd
    exact hx

theorem head?_dropWhile_not (l : List Char) :
    ∀ d, (l.dropWhile isWs).head? = some d → isWs d = false := by
  induction l with
  | nil => intro d h; cases h
  | cons x rest ih =>
    intro d h
    rw [List.dropWhile_cons] at h
    by_cases hx : isWs x = true
    · rw [if_pos hx] at h
      exact ih d h
    · rw [if_neg hx, List.head?_cons] at h
      cases h
      exact bool_false_of_not hx

theorem getLast?_dropWhile (l : List Char) :
    l.dropWhile isWs ≠ [] → (l.dropWhile isWs).getLast? = l.getLast? := by
  induction l with
  | nil => intro h; exact absurd rfl h
  | cons x rest ih =>
    intro h
    rw [List.dropWhile_cons] at h ⊢
    by_cases hx : isWs x = true
    · rw [if_pos hx] at h ⊢
      have hrest : rest ≠ [] := by
        intro hr
        subst hr
        exact h rfl
      rw [ih h, getLast?_cons_of_ne_nil x rest hrest]
    · rw [if_neg hx]

theorem pyStrip_head_not_ws (x : List Char) :
    ∀ d, (pyStrip x).head? = some d → isWs d = false := by
  intro d hd
  rw [pyStrip, List.head?_reverse] at hd
  have hne : ((x.dropWhile isWs).reverse).dropWhile isWs ≠ [] := by
    intro h0
    rw [h0] at hd
    cases hd
  rw [getLast?_dropWhile _ hne, List.getLast?_reverse] at hd
  exact head?_dropWhile_not x d hd

theorem pyStrip_getLast_not_ws (x : List Char) :
    ∀ d, (pyStrip x).getLast? = some d → isWs d = false := by
  intro d hd
  rw [pyStrip, List.getLast?_reverse] at hd
  exact head?_dropWhile_not _ d hd

theorem dropWhile_eq_self_of_head (l : List Char)
    (h : ∀ d, l.head? = some d → isWs d = false) : l.dropWhile isWs = l := by
  cases l with
  | nil => rfl
  | cons x rest => rw [List.dropWhile_cons, if_neg (by simp [h x rfl])]

theorem pyStrip_eq_self (l : List Char)
    (hh : ∀ d, l.head? = some d → isWs d = false)
    (hl : ∀ d, l.getLast? = some d → isWs d = false) : pyStrip l = l := by
  rw [pyStrip, dropWhile_eq_self_of_head l hh,
    dropWhile_eq_self_of_head l.reverse
      (by intro d hd; rw [List.head?_reverse] at hd; exact hl d hd),
    List.reverse_reverse]

/-- Claim C10: `normalize_brand` is idempotent — a successfully
normalized brand normalizes to itself, so every brand stored in a record
is a fixed point of normalization. -/
theorem normalize_brand_idempotent (s b : String) (h : normalize_brand s = .ok b) :
    normalize_brand b = .ok b := by
  simp only [normalize_brand] at h
  by_cases h0 : pyLower (collapseWs (pyStrip s.toList) false) = []
  · rw [if_pos h0] at h
    cases h
  · rw [if_neg h0] at h
    cases h
    have hh : ∀ d, (collapseWs (pyStrip s.toList) false).head? = some d → isWs d = false :=
      collapseWs_head (pyStrip s.toList) false (pyStrip_head_not_ws s.toList)
    have hl : ∀ d, (collapseWs (pyStrip s.toList) false).getLast? = some d → isWs d = false :=
      fun d hd =>
        collapseWs_getLast (pyStrip s.toList) false d (pyStrip_getLast_not_ws s.toList) hd
    have hfix : pyLower (collapseWs (pyStrip
        (pyLower (collapseWs (pyStrip s.toList) false))) false)
        = pyLower (collapseWs (pyStrip s.toList) false) := by
      rw [show pyStrip (pyLower (collapseWs (pyStrip s.toList) false))
            = pyLower (pyStrip (collapseWs (pyStrip s.toList) false)) from
          pyStrip_map_lower (collapseWs (pyStrip s.toList) false)]
      rw [pyStrip_eq_self (collapseWs (pyStrip s.toList) false) hh hl]
      rw [show collapseWs (pyLower (collapseWs (pyStrip s.toList) false)) false
            = pyLower (collapseWs (collapseWs (pyStrip s.toList) false) false) from
          collapseWs_map_lower (collapseWs (pyStrip s.toList) false) false]
      rw [collapseWs_idem (pyStrip s.toList) false, pyLower_idem]
    simp only [normalize_brand]
    rw [show (String.mk (pyLower (collapseWs (pyStrip s.toList) false))).toList
          = pyLower (collapseWs (pyStrip s.toList) false) from rfl]
    rw [hfix, if_neg h0]

/-- Witness for C10 at a concrete brand. -/
theorem normalize_brand_idempotent_witness :
    normalize_brand "adidas" = .ok "adidas" :=
  normalize_brand_idempotent "  AdiDAS  " "adidas" (by with_unfolding_all decide)

/-! ### Normalizer claims C4 and C8 -/



/-- Staged evaluation of `parseFloatChars` on a plain integer string
(no fraction, no exponent). -/
theorem parseFloatChars_int (cs rest1 : List Char) (neg : Bool) (iv ic : Nat)
    (hsign : parseSign cs = (neg, rest1))
    (hip : digitsCore 0 0 rest1 = (iv, ic, []))
    (hnz : ¬ (ic + 0 = 0)) :
    parseFloatChars cs
      = some (mkRat (if neg then -Int.ofNat (iv * 10 ^ 0 + 0) else Int.ofNat (iv * 10 ^ 0 + 0))
          (10 ^ 0)) := by
  simp only [parseFloatChars]
  rw [hsign]
  dsimp only
  rw [hip]
  dsimp only
  rw [if_neg hnz]

/-- Staged evaluation of `parseFloatChars` on an integer-dot-fraction
string (no exponent). -/
theorem parseFloatChars_frac (cs rest1 fr : List Char) (neg : Bool) (iv ic fv fc : Nat)
    (hsign : parseSign cs = (neg, rest1))
    (hip : digitsCore 0 0 rest1 = (iv, ic, '.' :: fr))
    (hfr : digitsCore 0 0 fr = (fv, fc, []))
    (hnz : ¬ (ic + fc = 0)) :
    parseFloatChars cs
      = some (mkRat (if neg then -Int.ofNat (iv * 10 ^ fc + fv) else Int.ofNat (iv * 10 ^ fc + fv))
          (10 ^ fc)) := by
  simp only [parseFloatChars]
  rw [hsign]
  dsimp only
  rw [hip]
  dsimp only
  rw [if_pos (rfl : ('.' : Char) = '.')]
  rw [hfr]
  dsimp only
  rw [if_neg hnz]

/-- Evaluation helper: `parse_price` computed through its pipeline one
stage at a time (keeps each reduction shallow). -/
theorem parse_price_eval (raw : String) (s0 s1 s2 s3 s4 : List Char) (v : ℚ)
    (h0 : pyStrip raw.toList = s0) (hne : s0 ≠ [])
    (h1 : stripCurrency s0 = s1)
    (h2 : stripThousands s1 = s2)
    (h3 : replaceComma s2 = s3)
    (h4 : pyStrip s3 = s4)
    (h5 : parseFloatChars s4 = some v)
    (h6 : ¬ v < 0) :
    parse_price raw = .ok v := by
  simp only [parse_price, pyFloat]
  rw [h0, if_neg hne, h1, h2, h3, h4, h5]
  dsimp only
  rw [if_neg h6]

set_option maxRecDepth 1024 in
/-- Claim C4: `parse_price` fails with `DataError` on trimmed-empty
input; otherwise it strips every character that is not a digit, comma,
period, hyphen or space, removes thousands separators sitting between a
digit and exactly three trailing digits, replaces commas with periods and
parses, failing with `DataError` on parse failure and on negative
results; in particular `parse_price "1 234,50 ₴" = 1234.50` and
`parse_price "-5"` fails. -/
theorem parse_price_spec :
    (∀ raw : String, pyStrip raw.toList = [] →
        parse_price raw = .error (.dataError "Price is empty"))
    ∧ (∀ raw : String, pyStrip raw.toList ≠ [] →
        pyFloat (replaceComma (stripThousands (stripCurrency (pyStrip raw.toList)))) = none →
        parse_price raw = .error (.dataError "Invalid price"))
    ∧ (∀ (raw : String) (v : ℚ), pyStrip raw.toList ≠ [] →
        pyFloat (replaceComma (stripThousands (stripCurrency (pyStrip raw.toList)))) = some v →
        v < 0 → parse_price raw = .error (.dataError "Negative price is not allowed"))
    ∧ (∀ (raw : String) (v : ℚ), parse_price raw = .ok v → 0 ≤ v)
    ∧ parse_price "1 234,50 ₴" = .ok (2469 / 2)
    ∧ parse_price "-5" = .error (.dataError "Negative price is not allowed")
    ∧ parse_price "12 345" = .ok 12345
    ∧ parse_price "1 234 567" = .ok 1234567 := by
  refine ⟨?_, ?_, ?_, parse_price_nonneg, ?_, ?_, ?_, ?_⟩
  · intro raw h
    simp only [String.toList] at h
    simp [parse_price, h]
  · intro raw h hn
    simp only [String.toList] at h hn
    simp [parse_price, h, hn]
  · intro raw v h hv hneg
    simp only [String.toList] at h hv
    simp [parse_price, h, hv, hneg]
  · refine parse_price_eval "1 234,50 ₴" ("1 234,50 ₴".toList) ("1 234,50 ".toList)
      ("1234,50 ".toList) ("1234.50 ".toList) ("1234.50".toList) (2469 / 2)
      (by with_unfolding_all decide) (by with_unfolding_all decide)
      (by with_unfolding_all decide) (by with_unfolding_all decide)
      (by with_unfolding_all decide) (by with_unfolding_all decide)
      ?_ (by norm_num)
    rw [parseFloatChars_frac ("1234.50".toList) ("1234.50".toList) ("50".toList)
      false 1234 4 50 2 (by with_unfolding_all decide) (by with_unfolding_all decide)
      (by with_unfolding_all decide) (by omega)]
    refine congrArg some (Rat.ext ?_ ?_) <;> with_unfolding_all decide
  · with_unfolding_all decide
  · refine parse_price_eval "12 345" ("12 345".toList) ("12 345".toList)
      ("12345".toList) ("12345".toList) ("12345".toList) 12345
      (by with_unfolding_all decide) (by with_unfolding_all decide)
      (by with_unfolding_all decide) (by with_unfolding_all decide)
      (by with_unfolding_all decide) (by with_unfolding_all decide)
      ?_ (by norm_num)
    rw [parseFloatChars_int ("12345".toList) ("12345".toList) false 12345 5
      (by with_unfolding_all decide) (by with_unfolding_all decide) (by omega)]
    refine congrArg some (Rat.ext ?_ ?_) <;> with_unfolding_all decide
  · refine parse_price_eval "1 234 567" ("1 234 567".toList) ("1 234 567".toList)
      ("1234567".toList) ("1234567".toList) ("1234567".toList) 1234567
      (by with_unfolding_all decide) (by with_unfolding_all decide)
      (by with_unfolding_all decide) (by with_unfolding_all decide)
      (by with_unfolding_all decide) (by with_unfolding_all decide)
      ?_ (by norm_num)
    rw [parseFloatChars_int ("1234567".toList) ("1234567".toList) false 1234567 7
      (by with_unfolding_all decide) (by with_unfolding_all decide) (by omega)]
    refine congrArg some (Rat.ext ?_ ?_) <;> with_unfolding_all decide

/-- Witness for C4 at the empty price string. -/
theorem parse_price_spec_witness :
    parse_price "" = .error (.dataError "Price is empty") :=
  parse_price_spec.1 "" rfl

/-- Claim C9: `register` fails with a `ValueError` exactly when the
class has no string `NAME`, the `NAME` is empty, the trimmed lower-cased
key is empty, or the key is already registered; a failing call leaves the
registry unchanged (no silent overwrite), and a successful call appends
the new entry under the trimmed lower-cased key. -/
theorem register_spec (reg : List (String × ReportCls)) (cls : ReportCls) :
    ((register reg cls).2.isSome = true ↔
      (cls.NAME = none ∨ cls.NAME = some ""
        ∨ (∃ name, cls.NAME = some name ∧ registryKey name = "")
        ∨ ∃ name, cls.NAME = some name ∧ (reg.lookup (registryKey name)).isSome = true))
    ∧ ((register reg cls).2.isSome = true → (register reg cls).1 = reg)
    ∧ ((register reg cls).2 = none →
        ∃ name, cls.NAME = some name ∧ name ≠ "" ∧ registryKey name ≠ ""
          ∧ (reg.lookup (registryKey name)).isSome = false
          ∧ (register reg cls).1 = reg ++ [(registryKey name, cls)]) := by
  cases hn : cls.NAME with
  | none =>
    have hreg : register reg cls
        = (reg, some (.valueError "Report class must define string NAME")) := by
      rw [register, hn]
    rw [hreg]
    exact ⟨⟨fun _ => Or.inl rfl, fun _ => rfl⟩, fun _ => rfl, fun h => by simp at h⟩
  | some name =>
    by_cases hne : name = ""
    · subst hne
      have hreg : register reg cls
          = (reg, some (.valueError "Report class must define string NAME")) := by
        rw [register, hn]
        dsimp only
        rw [if_pos rfl]
      rw [hreg]
      exact ⟨⟨fun _ => Or.inr (Or.inl rfl), fun _ => rfl⟩, fun _ => rfl, fun h => by simp at h⟩
    · by_cases hk : registryKey name = ""
      · have hreg : register reg cls
            = (reg, some (.valueError "Report NAME must be non-empty")) := by
          rw [register, hn]
          dsimp only
          rw [if_neg hne, if_pos hk]
        rw [hreg]
        exact ⟨⟨fun _ => Or.inr (Or.inr (Or.inl ⟨name, rfl, hk⟩)), fun _ => rfl⟩,
          fun _ => rfl, fun h => by simp at h⟩
      · by_cases hdup : (reg.lookup (registryKey name)).isSome = true
        · have hreg : register reg cls
              = (reg, some (.valueError ("Report already registered: " ++ registryKey name))) := by
            rw [register, hn]
            dsimp only
            rw [if_neg hne, if_neg hk, if_pos hdup]
          rw [hreg]
          exact ⟨⟨fun _ => Or.inr (Or.inr (Or.inr ⟨name, rfl, hdup⟩)), fun _ => rfl⟩,
            fun _ => rfl, fun h => by simp at h⟩
        · have hreg : register reg cls = (reg ++ [(registryKey name, cls)], none) := by
            rw [register, hn]
            dsimp only
            rw [if_neg hne, if_neg hk, if_neg hdup]
          rw [hreg]
          refine ⟨⟨fun habs => by simp at habs, ?_⟩, fun habs => by simp at habs,
            fun _ => ⟨name, rfl, hne, hk, bool_false_of_not hdup, rfl⟩⟩
          rintro (h1 | h1 | ⟨n2, hn2, hk2⟩ | ⟨n2, hn2, hd2⟩)
          · cases h1
          · injection h1 with h1
            exact absurd h1 hne
          · injection hn2 with hn2
            subst hn2
            exact absurd hk2 hk
          · injection hn2 with hn2
            subst hn2
            exact absurd hd2 hdup

/-- Witness for C9: registering a duplicate (up to trim and case) fails
and leaves the registry unchanged. -/
theorem register_spec_witness :
    (register [("average-rating", ⟨some "average-rating"⟩)] ⟨some " Average-Rating "⟩).1
      = [("average-rating", ⟨some "average-rating"⟩)] :=
  (register_spec [("average-rating", ⟨some "average-rating"⟩)]
      ⟨some " Average-Rating "⟩).2.1 (by with_unfolding_all decide)

end CsvReporter
